import Mathlib

/-!
Resource locks over a shared table (`tommzn/utte-lock`).

A shallow embedding of the Go package `lock`: the exponential backoff of
`backoff.go` and the lock coordinator of `db_lock.go`, with the table
`resource_locks` as an explicit state that every store call passes along.

Conventions.
* `time.Time` is the number of nanoseconds since the unix epoch, an `Int`;
  `time.Duration` is a number of nanoseconds, an `Int`.
* Every call of `currentTime()` is an input of the function that makes it.
* Go's `int` and `int64` are `Int`: the counters `currentAttempt` and `cnt` are only
  incremented below `naxAttempts` and `currentAttempt`, and the clock plus the retention
  stays within the range of `time.Time`, so nothing wraps; the one conversion that can
  leave `int64`, from `float64`, is modelled with its range.
* The coordinator holds a live store handle: `connect()` returns `nil` without
  doing anything, and every statement sent to the store is answered.
* The calls of the clients on the shared table follow one another: no statement of
  another client runs between the statements of one call.
-/

namespace Lock

/-! ## Data model (`types.go`) -/

/-- The type `model.Identifier`: an opaque identifier, compared by equality only. -/
abbrev Identifier := String

/-- The type `time.Time`, in nanoseconds since the unix epoch. -/
abbrev Time := Int

/-- The type `time.Duration`, in nanoseconds. -/
abbrev Duration := Int

/-- The constant `time.Second`. -/
def second : Duration := 1000000000

/-- The method `Time.Unix`: whole seconds since the epoch, rounded down. -/
def unix (t : Time) : Int := t / 1000000000

/-- The struct `Lease`. -/
structure Lease where
  ResourceId : Identifier
  ClientId : Identifier
  Expiry : Time
  Sequence : Int
  deriving DecidableEq, Repr

/-- Modelled from the spec: one row of the relation `resource_locks`, whose migration is
not among the sources. -/
structure Row where
  resource_id : Identifier
  client_id : Identifier
  expiry : Int
  sequence_no : Int
  deriving DecidableEq, Repr

/-- Modelled from the spec: the relation `resource_locks` together with the counter from
which the store assigns `sequence_no`; the counter outlives the rows, since a sequence
number is never reused. -/
structure Store where
  rows : List Row
  lastSeq : Int
  deriving DecidableEq, Repr

/-- The errors the coordinator returns. -/
inductive LockError
  /-- The store rejected an insert: the resource already has a row. -/
  | duplicateKey (resourceId : Identifier)
  /-- The result of a select had no row to scan. -/
  | noRows
  /-- The error of `assertExpiredLock`: "Lock not expiry for %s, %d". -/
  | notExpired (resourceId : Identifier) (currentExpiry : Int)
  /-- The error of `cleanupExpiredLock`: "Lock for %s alreadz exists and is not jet expired." -/
  | notCleaned (resourceId : Identifier)
  /-- The error of `ObtainWithBackoff`: "Unable to get lock for resource %s after %d repetitions, reson: %s". -/
  | exhausted (resourceId : Identifier) (attempts : Int) (reason : LockError)
  deriving DecidableEq, Repr

/-! ## The store's statements -/

/-- Modelled from the spec: the schema of `resource_locks` (its migration is not among the
sources). The statement `insert into "resource_locks"("resource_id", "client_id", "expiry")`:
`resource_id` is the key, so the insert is rejected when the resource has a row; otherwise
the store assigns the next value of its counter as `sequence_no`. -/
def Store.insert (s : Store) (resourceId clientId : Identifier) (expiry : Int) :
    Option LockError × Store :=
  if s.rows.any (fun row => row.resource_id == resourceId) then
    (some (.duplicateKey resourceId), s)
  else
    (none, { rows := s.rows ++ [⟨resourceId, clientId, expiry, s.lastSeq + 1⟩],
             lastSeq := s.lastSeq + 1 })

/-- The statement `SELECT ... FROM "resource_locks" WHERE "resource_id" = $1`: the rows of
the resource, in the order of the table. -/
def Store.select (s : Store) (resourceId : Identifier) : List Row :=
  s.rows.filter (fun row => row.resource_id == resourceId)

/-- The statement `delete from "resource_locks" WHERE "resource_id" = $1 and "expiry" < $2`:
the number of rows affected and the table without them. -/
def Store.deleteExpired (s : Store) (resourceId : Identifier) (now : Int) : Nat × Store :=
  let hit : Row → Bool := fun row => row.resource_id == resourceId && decide (row.expiry < now)
  ((s.rows.filter hit).length, { s with rows := s.rows.filter (fun row => !hit row) })

/-- The statement
`delete from "resource_locks" where "resource_id" = $1 and "client_id" = $2 and "sequence_no" = $3`. -/
def Store.deleteLock (s : Store) (resourceId clientId : Identifier) (sequence : Int) : Store :=
  { s with rows := s.rows.filter (fun row =>
      !(row.resource_id == resourceId && row.client_id == clientId
        && row.sequence_no == sequence)) }

/-! ## The lock coordinator (`db_lock.go`) -/

/-- The method `lockExpiry`, at the reading `now` of the clock. -/
def lockExpiry (retention : Duration) (now : Time) : Time := now + retention

/-- The method `insertLockEntry`, on the table or on the view of a transaction. -/
def insertLockEntry (s : Store) (resourceId clientId : Identifier) (expiry : Time) :
    Option LockError × Store :=
  s.insert resourceId clientId (unix expiry)

/-- The method `getLockExpiry`: the expiry of the first row of the resource. -/
def getLockExpiry (s : Store) (resourceId : Identifier) : Except LockError Int :=
  match s.select resourceId with
  | [] => .error .noRows
  | row :: _ => .ok row.expiry

/-- The method `getLockSequence`: the sequence number of the first row of the resource. -/
def getLockSequence (s : Store) (resourceId : Identifier) : Except LockError Int :=
  match s.select resourceId with
  | [] => .error .noRows
  | row :: _ => .ok row.sequence_no

/-- The method `assertExpiredLock`, at the reading `now` of the clock. -/
def assertExpiredLock (s : Store) (resourceId : Identifier) (now : Time) : Option LockError :=
  match getLockExpiry s resourceId with
  | .error err => some err
  | .ok currentExpiry =>
    if currentExpiry > unix now then some (.notExpired resourceId currentExpiry) else none

/-- The method `cleanupExpiredLock` on the view `tx` of a transaction, at the reading `now`
of the clock. On an error the transaction is rolled back. -/
def cleanupExpiredLock (tx : Store) (resourceId : Identifier) (now : Time) :
    Option LockError × Store :=
  let (rowsAffected, tx') := tx.deleteExpired resourceId (unix now)
  if rowsAffected ≠ 1 then (some (.notCleaned resourceId), tx) else (none, tx')

/-- The method `createLockEntry`: one attempt to get the lock. `nowAssert` and `nowCleanup`
are the readings of the clock in `assertExpiredLock` and in `cleanupExpiredLock`. The
transaction works on a view of the table, which `Commit` installs and `Rollback` drops. -/
def createLockEntry (db : Store) (resourceId clientId : Identifier) (expiry : Time)
    (nowAssert nowCleanup : Time) : Option LockError × Store :=
  match insertLockEntry db resourceId clientId expiry with
  | (none, db') => (none, db')
  | (some _, db') =>
    match assertExpiredLock db' resourceId nowAssert with
    | some err => (some err, db')
    | none =>
      match cleanupExpiredLock db' resourceId nowCleanup with
      | (some err, _) => (some err, db')
      | (none, tx) =>
        match insertLockEntry tx resourceId clientId expiry with
        | (some err, _) => (some err, db')
        | (none, tx') => (none, tx')

/-- The method `newLease`. -/
def newLease (db : Store) (resourceId clientId : Identifier) (expiry : Time) :
    Except LockError Lease :=
  match getLockSequence db resourceId with
  | .error err => .error err
  | .ok sequence => .ok ⟨resourceId, clientId, expiry, sequence⟩

/-- The method `Release`: the error it returns and the table afterwards. -/
def Release (db : Store) (lease : Lease) : Option LockError × Store :=
  (none, db.deleteLock lease.ResourceId lease.ClientId lease.Sequence)


/-! ## Floating point (`float64`) -/

/-- The values of Go's `float64`, IEEE-754 binary64: a finite value is `± m * 2^e`, and the
sign of a zero is kept. -/
inductive Float64
  | finite (neg : Bool) (m : Nat) (e : Int)
  | inf (neg : Bool)
  | nan
  deriving DecidableEq, Repr

namespace Float64

/-- The loop of `log2`: halves `n` until it is below two, at most `fuel` times. -/
def log2Loop : Nat → Nat → Nat
  | 0, _ => 0
  | fuel + 1, n => if n < 2 then 0 else log2Loop fuel (n / 2) + 1

/-- The position of the leading bit of `n`: `2^(log2 n) ≤ n < 2^(log2 n + 1)` for `0 < n`. -/
def log2 (n : Nat) : Nat := log2Loop n n

/-- The binary64 value nearest to `± m * 2^e`, ties to the even significand: 53 bits of
significand, the last place no lower than `2^(-1074)`, and infinity from `2^1024` on. -/
def round (neg : Bool) (m : Nat) (e : Int) : Float64 :=
  if m = 0 then .finite neg 0 0 else
  let q : Int := max (e + log2 m - 52) (-1074)
  let shift : Nat := (q - e).toNat
  let hi : Nat := m / 2 ^ shift
  let lo : Nat := m % 2 ^ shift
  let up : Bool := decide (2 ^ shift < 2 * lo) || (decide (2 ^ shift = 2 * lo) && hi % 2 == 1)
  let m' : Nat := if q ≤ e then m else if up then hi + 1 else hi
  let e' : Int := if q ≤ e then e else q
  if m' = 0 then .finite neg 0 0
  else if 1024 ≤ e' + log2 m' then .inf neg
  else .finite neg m' e'

/-- The conversion `float64(x)` of an `int64`. -/
def ofInt64 (x : Int) : Float64 := round (decide (x < 0)) x.natAbs 0

/-- The product `x * y` of two `float64`. -/
def mul : Float64 → Float64 → Float64
  | .nan, _ => .nan
  | _, .nan => .nan
  | .inf s, .inf t => .inf (xor s t)
  | .inf s, .finite t m _ => if m = 0 then .nan else .inf (xor s t)
  | .finite s m _, .inf t => if m = 0 then .nan else .inf (xor s t)
  | .finite s m e, .finite t n f => round (xor s t) (m * n) (e + f)

/-- The conversion `int64(x)` of a `float64`: the fraction is discarded. Go leaves the result
open when the value is not an `int64`; `indefinite` is what the platform returns then. -/
def toInt64 (indefinite : Float64 → Int) : Float64 → Int
  | .finite neg m e =>
    let mag : Nat := if 0 ≤ e then m * 2 ^ e.toNat else m / 2 ^ (-e).toNat
    let v : Int := if neg then -(mag : Int) else mag
    if -2 ^ 63 ≤ v ∧ v < 2 ^ 63 then v else indefinite (.finite neg m e)
  | x => indefinite x

/-- The number a finite `float64` stands for; zero for the others. -/
def toRat : Float64 → ℚ
  | .finite neg m e => (if neg then -1 else 1) * (m : ℚ) * (2 : ℚ) ^ e
  | _ => 0

end Float64

/-! ## The backoff (`backoff.go`) -/

/-- The struct `ExponentialBackoff`. -/
structure ExponentialBackoff where
  currentAttempt : Int
  naxAttempts : Int
  InitialInterval : Duration
  Multiplier : Float64
  deriving DecidableEq, Repr

/-- The function `NewExponentialBackoff`. -/
def NewExponentialBackoff (attempts : Int) (initialInterval : Duration) (multiplier : Float64) :
    ExponentialBackoff :=
  { currentAttempt := 0, naxAttempts := attempts, InitialInterval := initialInterval,
    Multiplier := multiplier }

/-- The function `NewBackoff`; the literal `1.5` is `3 * 2^(-1)`. -/
def NewBackoff : ExponentialBackoff :=
  let naxAttempts := 3
  let initialInterval := 1 * second
  let multiplier := Float64.finite false 3 (-1)
  NewExponentialBackoff naxAttempts initialInterval multiplier

/-- The function `newEmptyBackoff`. -/
def newEmptyBackoff : ExponentialBackoff :=
  { currentAttempt := 0, naxAttempts := 0, InitialInterval := 0,
    Multiplier := Float64.finite false 0 0 }

namespace ExponentialBackoff

/-- The method `Start`. -/
def Start (backoff : ExponentialBackoff) : ExponentialBackoff :=
  { backoff with currentAttempt := 0 }

/-- The statement `nextBackoff = time.Duration(float64(nextBackoff) * backoff.Multiplier)`. -/
def scale (indefinite : Float64 → Int) (multiplier : Float64) (nextBackoff : Duration) :
    Duration :=
  Float64.toInt64 indefinite ((Float64.ofInt64 nextBackoff).mul multiplier)

/-- The loop `for cnt < backoff.currentAttempt` of the method `Next`. -/
def nextLoop (indefinite : Float64 → Int) (backoff : ExponentialBackoff) (cnt : Int)
    (nextBackoff : Duration) : Duration :=
  if cnt < backoff.currentAttempt then
    nextLoop indefinite backoff (cnt + 1) (scale indefinite backoff.Multiplier nextBackoff)
  else nextBackoff
termination_by (backoff.currentAttempt - cnt).toNat
decreasing_by omega

/-- The method `Next`: the duration it returns, `none` for `nil`, and the backoff afterwards. -/
def Next (indefinite : Float64 → Int) (backoff : ExponentialBackoff) :
    Option Duration × ExponentialBackoff :=
  if backoff.currentAttempt ≥ backoff.naxAttempts then (none, backoff)
  else
    (some (nextLoop indefinite backoff 0 backoff.InitialInterval),
     { backoff with currentAttempt := backoff.currentAttempt + 1 })

/-- The method `Attempts`. -/
def Attempts (backoff : ExponentialBackoff) : Int := backoff.currentAttempt

/-- The method `MaxAttempts`. -/
def MaxAttempts (backoff : ExponentialBackoff) : Int := backoff.naxAttempts

end ExponentialBackoff

/-- Calls `Next` `k` times in a row: the results in order, and the backoff afterwards. -/
def ExponentialBackoff.nexts (indefinite : Float64 → Int) :
    Nat → ExponentialBackoff → List (Option Duration) × ExponentialBackoff
  | 0, backoff => ([], backoff)
  | k + 1, backoff =>
    let first := backoff.Next indefinite
    let rest := nexts indefinite k first.2
    (first.1 :: rest.1, rest.2)

/-- The interval as the spec words it, `initialInterval × multiplier^currentAttempt`, as a
rational number of nanoseconds. -/
def ExponentialBackoff.specInterval (backoff : ExponentialBackoff) : ℚ :=
  (backoff.InitialInterval : ℚ) * backoff.Multiplier.toRat ^ backoff.currentAttempt.toNat

/-! ## Acquisition with retries (`db_lock.go`) -/

/-- The readings of the clock in one round of the loop of `ObtainWithBackoff`: in
`lockExpiry`, in `assertExpiredLock` and in `cleanupExpiredLock`. -/
structure Readings where
  atExpiry : Time
  atAssert : Time
  atCleanup : Time
  deriving DecidableEq, Repr

/-- What `ObtainWithBackoff` does besides its calls to the store, in order. -/
inductive Event
  /-- The call `backoff.Start()`. -/
  | start
  /-- One call of `createLockEntry`, with the expiry it was given. -/
  | attempt (expiry : Time)
  /-- The call `time.Sleep(d)`. -/
  | sleep (d : Duration)
  deriving DecidableEq, Repr

/-- The result of `ObtainWithBackoff`: the lease or the error, the table and the backoff
afterwards, and the events of the call. -/
structure Outcome where
  lease : Except LockError Lease
  db : Store
  backoff : ExponentialBackoff
  trace : List Event

/-- The loop `for` of `ObtainWithBackoff`, from its round number `i`; the readings of the
clock in that round are `clock i`. -/
def obtainLoop (indefinite : Float64 → Int) (retention : Duration)
    (resourceId clientId : Identifier) (clock : Nat → Readings)
    (db : Store) (backoff : ExponentialBackoff) (i : Nat) : Outcome :=
  let expiry := lockExpiry retention (clock i).atExpiry
  match createLockEntry db resourceId clientId expiry (clock i).atAssert (clock i).atCleanup with
  | (none, db') =>
    { lease := newLease db' resourceId clientId expiry, db := db', backoff := backoff,
      trace := [.attempt expiry] }
  | (some err, db') =>
    match h : backoff.Next indefinite with
    | (none, backoff') =>
      { lease := .error (.exhausted resourceId backoff'.Attempts err), db := db',
        backoff := backoff', trace := [.attempt expiry] }
    | (some nextBackOff, backoff') =>
      let rest := obtainLoop indefinite retention resourceId clientId clock db' backoff' (i + 1)
      { rest with trace := .attempt expiry :: .sleep nextBackOff :: rest.trace }
termination_by (backoff.naxAttempts - backoff.currentAttempt).toNat
decreasing_by
  unfold ExponentialBackoff.Next at h
  split at h
  · simp at h
  · simp only [Prod.mk.injEq] at h
    rw [← h.2]
    simp only
    omega

/-- The method `ObtainWithBackoff`. -/
def ObtainWithBackoff (indefinite : Float64 → Int) (retention : Duration) (db : Store)
    (resourceId clientId : Identifier) (backoff : ExponentialBackoff)
    (clock : Nat → Readings) : Outcome :=
  let rest := obtainLoop indefinite retention resourceId clientId clock db backoff.Start 0
  { rest with trace := .start :: rest.trace }

/-- The method `Obtain`. -/
def Obtain (indefinite : Float64 → Int) (retention : Duration) (db : Store)
    (resourceId clientId : Identifier) (clock : Nat → Readings) : Outcome :=
  ObtainWithBackoff indefinite retention db resourceId clientId NewBackoff clock

/-- The method `ObtainWithNoWait`. -/
def ObtainWithNoWait (indefinite : Float64 → Int) (retention : Duration) (db : Store)
    (resourceId clientId : Identifier) (clock : Nat → Readings) : Outcome :=
  ObtainWithBackoff indefinite retention db resourceId clientId newEmptyBackoff clock

/-! ## The retry schedule, as the spec words it -/

/-- The call of `createLockEntry` in round `i` of the loop of `ObtainWithBackoff`, on the
table `db`. -/
def attemptAt (retention : Duration) (resourceId clientId : Identifier)
    (clock : Nat → Readings) (db : Store) (i : Nat) : Option LockError × Store :=
  createLockEntry db resourceId clientId (lockExpiry retention (clock i).atExpiry)
    (clock i).atAssert (clock i).atCleanup

/-- The interval `Next` returns on its call number `j`, counted from zero, after `Start`. -/
def ExponentialBackoff.interval (indefinite : Float64 → Int) (backoff : ExponentialBackoff)
    (j : Nat) : Duration :=
  ExponentialBackoff.nextLoop indefinite { backoff with currentAttempt := j } 0
    backoff.InitialInterval

/-- The events of `k` failed rounds, each followed by its sleep, and of one more round. -/
def retryTrace (indefinite : Float64 → Int) (retention : Duration) (clock : Nat → Readings)
    (backoff : ExponentialBackoff) (k : Nat) : List Event :=
  (List.range k).flatMap (fun j =>
      [Event.attempt (lockExpiry retention (clock j).atExpiry),
       Event.sleep (backoff.interval indefinite j)])
    ++ [Event.attempt (lockExpiry retention (clock k).atExpiry)]

/-- The clock that reads `ts[i]` throughout round `i`, and zero when the list is over. -/
def clockOf (ts : List Time) : Nat → Readings :=
  fun i => ⟨ts.getD i 0, ts.getD i 0, ts.getD i 0⟩

/-- What amd64 returns for `int64(x)` when `x` is not an `int64`. -/
def amd64Indefinite : Float64 → Int := fun _ => -2 ^ 63

/-! ## Histories of calls -/

/-- One call of a client on the shared table: `ObtainWithBackoff`, of which `Obtain` and
`ObtainWithNoWait` are instances, by a coordinator with the given retention and readings of
the clock, or `Release`. -/
inductive Op
  | obtain (retention : Duration) (resourceId clientId : Identifier)
      (backoff : ExponentialBackoff) (clock : Nat → Readings)
  | release (lease : Lease)

/-- Runs the calls in order: the table afterwards and the leases granted, oldest first. -/
def run (indefinite : Float64 → Int) : Store → List Op → Store × List Lease
  | db, [] => (db, [])
  | db, .obtain retention resourceId clientId backoff clock :: ops =>
    let o := ObtainWithBackoff indefinite retention db resourceId clientId backoff clock
    let rest := run indefinite o.db ops
    match o.lease with
    | .ok lease => (rest.1, lease :: rest.2)
    | .error _ => rest
  | db, .release lease :: ops => run indefinite (Release db lease).2 ops

/-! ## Consistent stores -/

/-- The row a lease stands for. -/
def Lease.row (lease : Lease) : Row :=
  ⟨lease.ResourceId, lease.ClientId, unix lease.Expiry, lease.Sequence⟩

/-- A consistent store: no two rows for one resource, and no row numbered beyond the
counter. -/
def Store.Consistent (s : Store) : Prop :=
  s.rows.Pairwise (fun a b => a.resource_id ≠ b.resource_id) ∧
    ∀ row ∈ s.rows, row.sequence_no ≤ s.lastSeq

instance (s : Store) : Decidable s.Consistent := by
  unfold Store.Consistent
  exact inferInstance

/-- The rows of the other resources. -/
def Store.others (s : Store) (resourceId : Identifier) : List Row :=
  s.rows.filter (fun row => !(row.resource_id == resourceId))

end Lock

/-! ## Lemmas on the store's statements -/

namespace Lock
open ExponentialBackoff

theorem Store.insert_of_mem {s : Store} {row : Row} (h : row ∈ s.rows) (c : Identifier)
    (e : Int) : s.insert row.resource_id c e = (some (.duplicateKey row.resource_id), s) := by
  unfold Store.insert
  rw [if_pos]
  simp only [List.any_eq_true, beq_iff_eq]
  exact ⟨row, h, rfl⟩

theorem Store.insert_of_free {s : Store} {r : Identifier} (h : s.select r = []) (c : Identifier)
    (e : Int) : s.insert r c e =
      (none, { rows := s.rows ++ [⟨r, c, e, s.lastSeq + 1⟩], lastSeq := s.lastSeq + 1 }) := by
  unfold Store.insert
  rw [if_neg]
  simp only [Store.select, List.filter_eq_nil_iff] at h
  simp only [List.any_eq_true, not_exists, not_and]
  intro row hrow
  exact h row hrow

theorem Store.insert_fst_some {s s' : Store} {r c : Identifier} {e : Int} {err : LockError}
    (h : s.insert r c e = (some err, s')) :
    s' = s ∧ s.select r ≠ [] ∧ err = .duplicateKey r := by
  unfold Store.insert at h
  split at h
  · next hany =>
    simp only [Prod.mk.injEq, Option.some.injEq] at h
    refine ⟨h.2.symm, ?_, h.1.symm⟩
    simp only [List.any_eq_true] at hany
    obtain ⟨row, hrow, hr⟩ := hany
    intro hnil
    simp only [Store.select, List.filter_eq_nil_iff] at hnil
    exact hnil row hrow hr
  · simp at h

theorem Store.insert_fst_none {s s' : Store} {r c : Identifier} {e : Int}
    (h : s.insert r c e = (none, s')) :
    s.select r = [] ∧
      s' = { rows := s.rows ++ [⟨r, c, e, s.lastSeq + 1⟩], lastSeq := s.lastSeq + 1 } := by
  unfold Store.insert at h
  split at h
  · simp at h
  · next hany =>
    simp only [Prod.mk.injEq, true_and] at h
    refine ⟨?_, h.symm⟩
    simp only [List.any_eq_true, not_exists, not_and] at hany
    simp only [Store.select, List.filter_eq_nil_iff]
    exact hany

theorem Store.others_of_free {s : Store} {r : Identifier} (h : s.select r = []) :
    s.others r = s.rows := by
  simp only [Store.select, List.filter_eq_nil_iff] at h
  simp only [Store.others, List.filter_eq_self, Bool.not_eq_true']
  intro row hrow
  simpa using h row hrow

theorem Store.select_others (s : Store) (r : Identifier) :
    (s.others r).filter (fun row => row.resource_id == r) = [] := by
  simp [Store.others, List.filter_eq_nil_iff]

theorem Store.deleteExpired_others (s : Store) (r : Identifier) (now : Int) :
    (s.deleteExpired r now).2.others r = s.others r := by
  simp only [Store.others, Store.deleteExpired, List.filter_filter]
  apply List.filter_congr
  intro row _
  by_cases hr : row.resource_id = r <;> simp [hr]

theorem Store.deleteExpired_lastSeq (s : Store) (r : Identifier) (now : Int) :
    (s.deleteExpired r now).2.lastSeq = s.lastSeq := rfl

/-! ## Lemmas on one attempt -/

/-- A failed attempt leaves the table as it was, and its error is one of three. -/
theorem createLockEntry_error {db db' : Store} {r c : Identifier} {expiry tA tC : Time}
    {err : LockError} (h : createLockEntry db r c expiry tA tC = (some err, db')) :
    db' = db ∧ ((∃ e, err = .notExpired r e) ∨ err = .notCleaned r ∨ err = .duplicateKey r) := by
  unfold createLockEntry at h
  split at h
  · simp at h
  · next e1 db1 h1 =>
    obtain ⟨hdb1, hsel, _⟩ := Store.insert_fst_some h1
    subst hdb1
    split at h
    · next e2 h2 =>
      simp only [Prod.mk.injEq, Option.some.injEq] at h
      refine ⟨h.2.symm, Or.inl ?_⟩
      rw [← h.1]
      unfold assertExpiredLock getLockExpiry at h2
      split at h2
      · next h3 =>
        split at h3
        · exact absurd (by assumption) hsel
        · simp at h3
      · split at h2
        · simp only [Option.some.injEq] at h2
          exact ⟨_, h2.symm⟩
        · simp at h2
    · split at h
      · next e3 tx3 h3 =>
        simp only [Prod.mk.injEq, Option.some.injEq] at h
        refine ⟨h.2.symm, Or.inr (Or.inl ?_)⟩
        rw [← h.1]
        unfold cleanupExpiredLock at h3
        simp only at h3
        split at h3
        · simp only [Prod.mk.injEq, Option.some.injEq] at h3
          exact h3.1.symm
        · simp at h3
      · split at h
        · next e4 tx4 h4 =>
          simp only [Prod.mk.injEq, Option.some.injEq] at h
          refine ⟨h.2.symm, Or.inr (Or.inr ?_)⟩
          rw [← h.1]
          exact (Store.insert_fst_some h4).2.2
        · simp at h

/-- A successful attempt leaves the rows of the other resources and, after them, the new
row of the resource, numbered by the store. -/
theorem createLockEntry_ok {db db' : Store} {r c : Identifier} {expiry tA tC : Time}
    (h : createLockEntry db r c expiry tA tC = (none, db')) :
    db' = { rows := db.others r ++ [⟨r, c, unix expiry, db.lastSeq + 1⟩],
            lastSeq := db.lastSeq + 1 } := by
  unfold createLockEntry at h
  split at h
  · next db1 h1 =>
    obtain ⟨hfree, hdb1⟩ := Store.insert_fst_none h1
    simp only [Prod.mk.injEq, true_and] at h
    rw [← h, hdb1, Store.others_of_free hfree]
  · next e1 db1 h1 =>
    obtain ⟨hdb1, -, -⟩ := Store.insert_fst_some h1
    subst hdb1
    split at h
    · simp at h
    · split at h
      · simp at h
      · next tx3 h3 =>
        split at h
        · simp at h
        · next tx4 h4 =>
          simp only [Prod.mk.injEq, true_and] at h
          obtain ⟨hfree, htx4⟩ := Store.insert_fst_none h4
          unfold cleanupExpiredLock at h3
          simp only at h3
          split at h3
          · simp at h3
          · simp only [Prod.mk.injEq, true_and] at h3
            rw [← h, htx4, ← Store.others_of_free hfree, ← h3, Store.deleteExpired_others,
              Store.deleteExpired_lastSeq]

/-- The fast path: on a resource without a row the first insert succeeds. -/
theorem createLockEntry_free {db : Store} {r : Identifier} (hfree : db.select r = [])
    (c : Identifier) (expiry tA tC : Time) :
    createLockEntry db r c expiry tA tC =
      (none, { rows := db.rows ++ [⟨r, c, unix expiry, db.lastSeq + 1⟩],
               lastSeq := db.lastSeq + 1 }) := by
  unfold createLockEntry insertLockEntry
  rw [Store.insert_of_free hfree]


/-- While the resource has a row that the delete of `cleanupExpiredLock` does not match, the
attempt fails. -/
theorem createLockEntry_held {db : Store} {row : Row} (hrow : row ∈ db.rows)
    (c : Identifier) (expiry tA : Time) {tC : Time} (hC : unix tC ≤ row.expiry) :
    ∃ err, createLockEntry db row.resource_id c expiry tA tC = (some err, db) := by
  have key : ∀ res, createLockEntry db row.resource_id c expiry tA tC = res →
      ∃ err, res = (some err, db) := by
    rintro ⟨e, db'⟩ h
    cases e with
    | some err => exact ⟨err, by rw [(createLockEntry_error h).1]⟩
    | none =>
      exfalso
      have hdb' := createLockEntry_ok h
      unfold createLockEntry insertLockEntry at h
      rw [Store.insert_of_mem hrow] at h
      simp only at h
      split at h
      · simp at h
      · split at h
        · simp at h
        · next tx3 h3 =>
          unfold cleanupExpiredLock at h3
          simp only at h3
          split at h3
          · simp at h3
          · simp only [Prod.mk.injEq, true_and] at h3
            have hmem : row ∈ tx3.rows := by
              rw [← h3]
              simp only [Store.deleteExpired, List.mem_filter, hrow, true_and]
              simp only [beq_self_eq_true, Bool.true_and, Bool.not_eq_true', decide_eq_false_iff_not]
              omega
            rw [Store.insert_of_mem hmem] at h
            simp at h
  exact key _ rfl

/-- Reclamation: when the only row of the resource passes the check of `assertExpiredLock`
and is matched by the delete of `cleanupExpiredLock`, the attempt succeeds. -/
theorem createLockEntry_reclaim {db : Store} {row : Row} (hsel : db.select row.resource_id = [row])
    (c : Identifier) (expiry : Time) {tA tC : Time}
    (hA : row.expiry ≤ unix tA) (hC : row.expiry < unix tC) :
    createLockEntry db row.resource_id c expiry tA tC =
      (none, { rows := db.others row.resource_id ++
                 [⟨row.resource_id, c, unix expiry, db.lastSeq + 1⟩],
               lastSeq := db.lastSeq + 1 }) := by
  have hrow : row ∈ db.rows := by
    have : row ∈ db.select row.resource_id := by rw [hsel]; exact List.mem_singleton_self _
    exact (List.mem_filter.mp this).1
  have hdel : (db.deleteExpired row.resource_id (unix tC)).1 = 1 := by
    simp only [Store.deleteExpired]
    have : db.rows.filter (fun r => r.resource_id == row.resource_id && decide (r.expiry < unix tC))
        = (db.select row.resource_id).filter (fun r => decide (r.expiry < unix tC)) := by
      simp only [Store.select, List.filter_filter]
      apply List.filter_congr
      intro r _
      exact Bool.and_comm _ _
    rw [this, hsel]
    simp [hC]
  have hfree : (db.deleteExpired row.resource_id (unix tC)).2.select row.resource_id = [] := by
    simp only [Store.deleteExpired, Store.select, List.filter_filter, List.filter_eq_nil_iff]
    intro r hr
    simp only [Bool.and_eq_true, beq_iff_eq, Bool.not_eq_true', Bool.and_eq_false_imp,
      decide_eq_false_iff_not, not_and, not_lt]
    intro hres hne
    have hmem : r ∈ db.select row.resource_id := by
      simp only [Store.select, List.mem_filter, beq_iff_eq]
      exact ⟨hr, hres⟩
    rw [hsel, List.mem_singleton] at hmem
    subst hmem
    have := hne rfl
    omega
  unfold createLockEntry insertLockEntry
  rw [Store.insert_of_mem hrow]
  simp only
  have hassert : assertExpiredLock db row.resource_id tA = none := by
    unfold assertExpiredLock getLockExpiry
    rw [hsel]
    simp only
    rw [if_neg]
    omega
  rw [hassert]
  simp only
  have hclean : cleanupExpiredLock db row.resource_id tC =
      (none, (db.deleteExpired row.resource_id (unix tC)).2) := by
    unfold cleanupExpiredLock
    simp only
    rw [if_neg]
    simp [hdel]
  rw [hclean]
  simp only
  rw [Store.insert_of_free hfree]
  simp only
  rw [← Store.others_of_free hfree, Store.deleteExpired_others, Store.deleteExpired_lastSeq]

/-- In a consistent store the rows of a resource are at most the one at hand. -/
theorem Store.Consistent.select_eq {s : Store} (hs : s.Consistent) {row : Row}
    (hrow : row ∈ s.rows) : s.select row.resource_id = [row] := by
  obtain ⟨hp, -⟩ := hs
  unfold Store.select
  generalize s.rows = rows at hp hrow
  induction rows with
  | nil => cases hrow
  | cons a rest ih =>
    rw [List.pairwise_cons] at hp
    rcases List.mem_cons.mp hrow with rfl | hmem
    · rw [List.filter_cons_of_pos (by simp)]
      congr 1
      rw [List.filter_eq_nil_iff]
      intro b hb
      simpa using (hp.1 b hb).symm
    · rw [List.filter_cons_of_neg (by simpa using hp.1 row hmem), ih hp.2 hmem]

/-- The table after a successful attempt is consistent. -/
theorem Store.Consistent.grant {s : Store} (hs : s.Consistent) (r c : Identifier) (e : Int) :
    Store.Consistent { rows := s.others r ++ [⟨r, c, e, s.lastSeq + 1⟩],
                       lastSeq := s.lastSeq + 1 } := by
  obtain ⟨hp, hseq⟩ := hs
  refine ⟨?_, ?_⟩
  · simp only
    rw [List.pairwise_append]
    refine ⟨hp.sublist (List.filter_sublist _), List.pairwise_singleton _ _, ?_⟩
    intro a ha b hb
    rw [List.mem_singleton] at hb
    subst hb
    simp only [Store.others, List.mem_filter, Bool.not_eq_true', beq_eq_false_iff_ne] at ha
    exact ha.2
  · intro row hrow
    simp only [List.mem_append, List.mem_singleton] at hrow
    rcases hrow with h | rfl
    · have := hseq row (List.mem_filter.mp h).1
      simp only
      omega
    · simp

/-- The table after `Release` is consistent. -/
theorem Store.Consistent.release {s : Store} (hs : s.Consistent) (lease : Lease) :
    (Release s lease).2.Consistent := by
  obtain ⟨hp, hseq⟩ := hs
  exact ⟨hp.sublist (List.filter_sublist _), fun row hrow => hseq row (List.mem_filter.mp hrow).1⟩

/-! ## Lemmas on the backoff and on the loop of `ObtainWithBackoff` -/

theorem ExponentialBackoff.Next_of_lt (indefinite : Float64 → Int) {backoff : ExponentialBackoff}
    (h : backoff.currentAttempt < backoff.naxAttempts) :
    backoff.Next indefinite =
      (some (nextLoop indefinite backoff 0 backoff.InitialInterval),
       { backoff with currentAttempt := backoff.currentAttempt + 1 }) := by
  unfold ExponentialBackoff.Next
  rw [if_neg (by omega)]

theorem ExponentialBackoff.Next_of_ge (indefinite : Float64 → Int) {backoff : ExponentialBackoff}
    (h : backoff.naxAttempts ≤ backoff.currentAttempt) :
    backoff.Next indefinite = (none, backoff) := by
  unfold ExponentialBackoff.Next
  rw [if_pos (by omega)]

section
variable {indefinite : Float64 → Int} {retention : Duration} {resourceId clientId : Identifier}
  {clock : Nat → Readings} {db db' : Store} {backoff backoff' : ExponentialBackoff} {i : Nat}

theorem obtainLoop_ok (h : attemptAt retention resourceId clientId clock db i = (none, db')) :
    obtainLoop indefinite retention resourceId clientId clock db backoff i =
      { lease := newLease db' resourceId clientId (lockExpiry retention (clock i).atExpiry),
        db := db', backoff := backoff,
        trace := [.attempt (lockExpiry retention (clock i).atExpiry)] } := by
  unfold attemptAt at h
  rw [obtainLoop]
  simp only [h]

theorem obtainLoop_last {err : LockError}
    (h : attemptAt retention resourceId clientId clock db i = (some err, db'))
    (hn : backoff.Next indefinite = (none, backoff')) :
    obtainLoop indefinite retention resourceId clientId clock db backoff i =
      { lease := .error (.exhausted resourceId backoff'.Attempts err), db := db',
        backoff := backoff', trace := [.attempt (lockExpiry retention (clock i).atExpiry)] } := by
  unfold attemptAt at h
  rw [obtainLoop]
  simp only [h]
  split
  · next h' => rw [hn] at h'; cases h'; rfl
  · next h' => rw [hn] at h'; cases h'

theorem obtainLoop_retry {err : LockError} {d : Duration}
    (h : attemptAt retention resourceId clientId clock db i = (some err, db'))
    (hn : backoff.Next indefinite = (some d, backoff')) :
    obtainLoop indefinite retention resourceId clientId clock db backoff i =
      { obtainLoop indefinite retention resourceId clientId clock db' backoff' (i + 1) with
        trace := .attempt (lockExpiry retention (clock i).atExpiry) :: .sleep d ::
          (obtainLoop indefinite retention resourceId clientId clock db' backoff' (i + 1)).trace } := by
  unfold attemptAt at h
  rw [obtainLoop]
  simp only [h]
  split
  · next h' => rw [hn] at h'; cases h'
  · next h' => rw [hn] at h'; cases h'; rfl

end

/-- The lease read back after a successful attempt carries the number of the new row. -/
theorem newLease_grant (db : Store) (r c : Identifier) (e : Int) (expiry : Time) :
    newLease { rows := db.others r ++ [⟨r, c, e, db.lastSeq + 1⟩], lastSeq := db.lastSeq + 1 }
      r c expiry = .ok ⟨r, c, expiry, db.lastSeq + 1⟩ := by
  unfold newLease getLockSequence Store.select
  simp only [List.filter_append, Store.select_others, List.nil_append]
  rw [List.filter_cons_of_pos (by simp)]

/-- The table after a successful attempt on `db`. -/
theorem attemptAt_ok {retention : Duration} {r c : Identifier} {clock : Nat → Readings}
    {db db' : Store} {i : Nat} (h : attemptAt retention r c clock db i = (none, db')) :
    db' = { rows := db.others r ++
              [⟨r, c, unix (lockExpiry retention (clock i).atExpiry), db.lastSeq + 1⟩],
            lastSeq := db.lastSeq + 1 } :=
  createLockEntry_ok h

/-- Every call of `ObtainWithBackoff` ends: either without a lease and with the table as it
was, or with the lease of the row it has put in place of the rows of the resource. -/
theorem obtainLoop_cases (indefinite : Float64 → Int) (retention : Duration) (r c : Identifier)
    (clock : Nat → Readings) (db : Store) (backoff : ExponentialBackoff) (i : Nat) :
    ((obtainLoop indefinite retention r c clock db backoff i).db = db ∧
      ∃ err, (obtainLoop indefinite retention r c clock db backoff i).lease = .error err) ∨
    ∃ expiry,
      (obtainLoop indefinite retention r c clock db backoff i).db =
        { rows := db.others r ++ [⟨r, c, unix expiry, db.lastSeq + 1⟩],
          lastSeq := db.lastSeq + 1 } ∧
      (obtainLoop indefinite retention r c clock db backoff i).lease =
        .ok ⟨r, c, expiry, db.lastSeq + 1⟩ := by
  generalize hm : (backoff.naxAttempts - backoff.currentAttempt).toNat = m
  induction m generalizing backoff i with
  | zero =>
    rcases hatt : attemptAt retention r c clock db i with ⟨_ | err, db'⟩
    · right
      rw [obtainLoop_ok hatt, attemptAt_ok hatt]
      exact ⟨_, rfl, newLease_grant _ _ _ _ _⟩
    · left
      have hdb := (createLockEntry_error hatt).1
      rw [obtainLoop_last hatt (Next_of_ge indefinite (by omega))]
      exact ⟨hdb, _, rfl⟩
  | succ m ih =>
    rcases hatt : attemptAt retention r c clock db i with ⟨_ | err, db'⟩
    · right
      rw [obtainLoop_ok hatt, attemptAt_ok hatt]
      exact ⟨_, rfl, newLease_grant _ _ _ _ _⟩
    · have hdb := (createLockEntry_error hatt).1
      subst hdb
      rw [obtainLoop_retry hatt (Next_of_lt indefinite (by omega))]
      exact ih _ (i + 1) (by simp only; omega)


theorem unix_mono {a b : Time} (h : a ≤ b) : unix a ≤ unix b :=
  Int.ediv_le_ediv (by norm_num) h

section
variable {indefinite : Float64 → Int} {retention : Duration} {r c : Identifier}
  {clock : Nat → Readings} {db db' : Store}

theorem ObtainWithNoWait_ok (h : attemptAt retention r c clock db 0 = (none, db')) :
    ObtainWithNoWait indefinite retention db r c clock =
      { lease := newLease db' r c (lockExpiry retention (clock 0).atExpiry), db := db',
        backoff := newEmptyBackoff,
        trace := [.start, .attempt (lockExpiry retention (clock 0).atExpiry)] } := by
  unfold ObtainWithNoWait ObtainWithBackoff
  rw [obtainLoop_ok h]
  rfl

theorem ObtainWithNoWait_error {err : LockError}
    (h : attemptAt retention r c clock db 0 = (some err, db')) :
    ObtainWithNoWait indefinite retention db r c clock =
      { lease := .error (.exhausted r 0 err), db := db', backoff := newEmptyBackoff,
        trace := [.start, .attempt (lockExpiry retention (clock 0).atExpiry)] } := by
  unfold ObtainWithNoWait ObtainWithBackoff
  rw [obtainLoop_last h (Next_of_ge indefinite (by decide))]
  rfl

end

/-- The rows of another resource after a successful attempt. -/
theorem Store.select_grant (db : Store) (r c : Identifier) (e : Int) {r' : Identifier}
    (h : r' ≠ r) :
    Store.select { rows := db.others r ++ [⟨r, c, e, db.lastSeq + 1⟩],
                   lastSeq := db.lastSeq + 1 } r' = db.select r' := by
  simp only [Store.select, Store.others, List.filter_append, List.filter_filter]
  rw [List.filter_cons_of_neg (by simpa using h.symm)]
  simp only [List.filter_nil, List.append_nil]
  apply List.filter_congr
  intro row _
  by_cases hr : row.resource_id = r' <;> simp [hr, h]

/-- The rows of the resource after a successful attempt. -/
theorem Store.select_grant_self (db : Store) (r c : Identifier) (e : Int) :
    Store.select { rows := db.others r ++ [⟨r, c, e, db.lastSeq + 1⟩],
                   lastSeq := db.lastSeq + 1 } r = [⟨r, c, e, db.lastSeq + 1⟩] := by
  simp only [Store.select, List.filter_append, Store.select_others, List.nil_append]
  rw [List.filter_cons_of_pos (by simp)]
  rfl

/-! ## The claims on one attempt, on `ObtainWithNoWait` and on `Release` -/

/-- C1. Mutual exclusion before expiry: while the row of a lease is in the table, every
`ObtainWithNoWait` on its resource, by any client, whose readings of the clock are before
the lease's `Expiry` (the reading in `cleanupExpiredLock` is the one that matters) returns
an error and no lease, after `Start`, one attempt and no sleep, and leaves the table as it
was. The expiry is stored and compared in whole seconds, and the statement holds through
that truncation. -/
theorem ObtainWithNoWait_before_expiry (indefinite : Float64 → Int) (retention : Duration)
    (db : Store) (lease : Lease) (clientId : Identifier) (clock : Nat → Readings)
    (hrow : lease.row ∈ db.rows) (hbefore : (clock 0).atCleanup < lease.Expiry) :
    ∃ err, ObtainWithNoWait indefinite retention db lease.ResourceId clientId clock =
      { lease := .error (.exhausted lease.ResourceId 0 err), db := db,
        backoff := newEmptyBackoff,
        trace := [.start, .attempt (lockExpiry retention (clock 0).atExpiry)] } := by
  have hC : unix (clock 0).atCleanup ≤ lease.row.expiry := unix_mono (le_of_lt hbefore)
  obtain ⟨err, herr⟩ := createLockEntry_held hrow clientId
    (lockExpiry retention (clock 0).atExpiry) (clock 0).atAssert hC
  exact ⟨err, ObtainWithNoWait_error herr⟩

/-- C1, at a lease that expires at 2.5 s and a second client that asks at 2.2 s, in the very
second the row is stored with. -/
theorem ObtainWithNoWait_before_expiry_witness :
    (⟨"r", "a", 2500000000, 1⟩ : Lease).row ∈ (⟨[⟨"r", "a", 2, 1⟩], 1⟩ : Store).rows ∧
    (2200000000 : Time) < 2500000000 ∧
    ∃ err, ObtainWithNoWait amd64Indefinite (2 * second) ⟨[⟨"r", "a", 2, 1⟩], 1⟩ "r" "b"
        (fun _ => ⟨2200000000, 2200000000, 2200000000⟩) =
      { lease := .error (.exhausted "r" 0 err), db := ⟨[⟨"r", "a", 2, 1⟩], 1⟩,
        backoff := newEmptyBackoff,
        trace := [.start, .attempt (lockExpiry (2 * second) 2200000000)] } :=
  ⟨by decide, by decide,
   ObtainWithNoWait_before_expiry amd64Indefinite (2 * second) ⟨[⟨"r", "a", 2, 1⟩], 1⟩
     ⟨"r", "a", 2500000000, 1⟩ "b" (fun _ => ⟨2200000000, 2200000000, 2200000000⟩)
     (by decide) (by decide)⟩

/-- C2 as stated fails: a lease granted at 0.5 s with a retention of 2 s expires at 2.5 s,
and an `ObtainWithNoWait` at 2.7 s, after the expiry, still fails and leaves the row: the
stored expiry is the second 2, which the check `expiry > now` lets pass and the delete
`expiry < now` does not match. -/
theorem ObtainWithNoWait_after_expiry_same_second :
    (ObtainWithNoWait amd64Indefinite (2 * second) ⟨[], 0⟩ "r" "a"
        (fun _ => ⟨500000000, 500000000, 500000000⟩)).lease = .ok ⟨"r", "a", 2500000000, 1⟩ ∧
    (ObtainWithNoWait amd64Indefinite (2 * second) ⟨[], 0⟩ "r" "a"
        (fun _ => ⟨500000000, 500000000, 500000000⟩)).db = ⟨[⟨"r", "a", 2, 1⟩], 1⟩ ∧
    (2500000000 : Time) < 2700000000 ∧
    (ObtainWithNoWait amd64Indefinite (2 * second) ⟨[⟨"r", "a", 2, 1⟩], 1⟩ "r" "b"
        (fun _ => ⟨2700000000, 2700000000, 2700000000⟩)).lease =
      .error (.exhausted "r" 0 (.notCleaned "r")) ∧
    (ObtainWithNoWait amd64Indefinite (2 * second) ⟨[⟨"r", "a", 2, 1⟩], 1⟩ "r" "b"
        (fun _ => ⟨2700000000, 2700000000, 2700000000⟩)).db = ⟨[⟨"r", "a", 2, 1⟩], 1⟩ := by
  have h1 : attemptAt (2 * second) "r" "a" (fun _ => ⟨500000000, 500000000, 500000000⟩)
      ⟨[], 0⟩ 0 = (none, ⟨[⟨"r", "a", 2, 1⟩], 1⟩) := by decide
  have h2 : attemptAt (2 * second) "r" "b" (fun _ => ⟨2700000000, 2700000000, 2700000000⟩)
      ⟨[⟨"r", "a", 2, 1⟩], 1⟩ 0 = (some (.notCleaned "r"), ⟨[⟨"r", "a", 2, 1⟩], 1⟩) := by decide
  rw [ObtainWithNoWait_ok h1, ObtainWithNoWait_error h2]
  exact ⟨rfl, rfl, by decide, rfl, rfl⟩

/-- C2, amended. Reclamation after the second of expiry: in a consistent store that holds
the row of a lease with sequence `S` and expiry `E`, an `ObtainWithNoWait` on the resource
whose `assertExpiredLock` reads a second not before that of `E` and whose
`cleanupExpiredLock` reads a second after that of `E` succeeds: it returns a lease with the
new client, the new expiry and a sequence above `S`, after one attempt, and leaves for the
resource exactly the row of that lease, the rows of the other resources being as before.
An `ObtainWithNoWait` whose `cleanupExpiredLock` reads a second not after that of `E`, so
also one at a time after `E` within the same second, returns an error and no lease after
one attempt and leaves the table as it was. -/
theorem ObtainWithNoWait_reclaim (indefinite : Float64 → Int) (retention : Duration)
    (db : Store) (lease : Lease) (clientId : Identifier) (clock : Nat → Readings)
    (hcons : db.Consistent) (hrow : lease.row ∈ db.rows) :
    (unix lease.Expiry ≤ unix (clock 0).atAssert →
      unix lease.Expiry < unix (clock 0).atCleanup →
      ∃ sequence, lease.Sequence < sequence ∧
        (ObtainWithNoWait indefinite retention db lease.ResourceId clientId clock).lease =
          .ok ⟨lease.ResourceId, clientId, (clock 0).atExpiry + retention, sequence⟩ ∧
        (ObtainWithNoWait indefinite retention db lease.ResourceId clientId clock).trace =
          [.start, .attempt ((clock 0).atExpiry + retention)] ∧
        (ObtainWithNoWait indefinite retention db lease.ResourceId clientId clock).db.select
            lease.ResourceId =
          [⟨lease.ResourceId, clientId, unix ((clock 0).atExpiry + retention), sequence⟩] ∧
        ∀ r, r ≠ lease.ResourceId →
          (ObtainWithNoWait indefinite retention db lease.ResourceId clientId clock).db.select
              r = db.select r) ∧
    (unix (clock 0).atCleanup ≤ unix lease.Expiry →
      ∃ err, ObtainWithNoWait indefinite retention db lease.ResourceId clientId clock =
        { lease := .error (.exhausted lease.ResourceId 0 err), db := db,
          backoff := newEmptyBackoff,
          trace := [.start, .attempt ((clock 0).atExpiry + retention)] }) := by
  refine ⟨fun hassert hcleanup => ?_, fun hsame => ?_⟩
  · have hsel := hcons.select_eq hrow
    have hatt : attemptAt retention lease.ResourceId clientId clock db 0 = _ :=
      createLockEntry_reclaim hsel clientId (lockExpiry retention (clock 0).atExpiry)
        hassert hcleanup
    have hseq : lease.Sequence ≤ db.lastSeq := hcons.2 _ hrow
    refine ⟨db.lastSeq + 1, by omega, ?_⟩
    rw [ObtainWithNoWait_ok hatt]
    exact ⟨newLease_grant _ _ _ _ _, rfl, Store.select_grant_self _ _ _ _,
      fun r hr => Store.select_grant _ _ _ _ hr⟩
  · have hC : unix (clock 0).atCleanup ≤ lease.row.expiry := hsame
    obtain ⟨err, herr⟩ := createLockEntry_held hrow clientId
      (lockExpiry retention (clock 0).atExpiry) (clock 0).atAssert hC
    exact ⟨err, ObtainWithNoWait_error herr⟩

/-- C2 amended, at the lease that expires at 2.5 s: a second client that asks at 3 s gets
the lock with the sequence 2, and one that asks at 2.7 s is refused. -/
theorem ObtainWithNoWait_reclaim_witness :
    (⟨[⟨"r", "a", 2, 1⟩], 1⟩ : Store).Consistent ∧
    (⟨"r", "a", 2500000000, 1⟩ : Lease).row ∈ (⟨[⟨"r", "a", 2, 1⟩], 1⟩ : Store).rows ∧
    (∃ sequence, (1 : Int) < sequence ∧
      (ObtainWithNoWait amd64Indefinite (2 * second) ⟨[⟨"r", "a", 2, 1⟩], 1⟩ "r" "b"
          (fun _ => ⟨3000000000, 3000000000, 3000000000⟩)).lease =
        .ok ⟨"r", "b", 3000000000 + 2 * second, sequence⟩ ∧
      (ObtainWithNoWait amd64Indefinite (2 * second) ⟨[⟨"r", "a", 2, 1⟩], 1⟩ "r" "b"
          (fun _ => ⟨3000000000, 3000000000, 3000000000⟩)).trace =
        [.start, .attempt (3000000000 + 2 * second)] ∧
      (ObtainWithNoWait amd64Indefinite (2 * second) ⟨[⟨"r", "a", 2, 1⟩], 1⟩ "r" "b"
          (fun _ => ⟨3000000000, 3000000000, 3000000000⟩)).db.select "r" =
        [⟨"r", "b", unix (3000000000 + 2 * second), sequence⟩] ∧
      ∀ r, r ≠ "r" →
        (ObtainWithNoWait amd64Indefinite (2 * second) ⟨[⟨"r", "a", 2, 1⟩], 1⟩ "r" "b"
          (fun _ => ⟨3000000000, 3000000000, 3000000000⟩)).db.select r =
          (⟨[⟨"r", "a", 2, 1⟩], 1⟩ : Store).select r) ∧
    (2500000000 : Time) < 2700000000 ∧
    ∃ err, ObtainWithNoWait amd64Indefinite (2 * second) ⟨[⟨"r", "a", 2, 1⟩], 1⟩ "r" "b"
        (fun _ => ⟨2700000000, 2700000000, 2700000000⟩) =
      { lease := .error (.exhausted "r" 0 err), db := ⟨[⟨"r", "a", 2, 1⟩], 1⟩,
        backoff := newEmptyBackoff,
        trace := [.start, .attempt (2700000000 + 2 * second)] } :=
  ⟨by decide, by decide,
   (ObtainWithNoWait_reclaim amd64Indefinite (2 * second) ⟨[⟨"r", "a", 2, 1⟩], 1⟩
     ⟨"r", "a", 2500000000, 1⟩ "b" (fun _ => ⟨3000000000, 3000000000, 3000000000⟩)
     (by decide) (by decide)).1 (by decide) (by decide),
   by decide,
   (ObtainWithNoWait_reclaim amd64Indefinite (2 * second) ⟨[⟨"r", "a", 2, 1⟩], 1⟩
     ⟨"r", "a", 2500000000, 1⟩ "b" (fun _ => ⟨2700000000, 2700000000, 2700000000⟩)
     (by decide) (by decide)).2 (by decide)⟩

/-- C3. Fast path on a free resource: when the table has no row for the resource,
`ObtainWithNoWait` succeeds after one attempt, whatever the client and the readings of the
clock; the lease has the resource, the client, the expiry `t + retention` for the reading
`t` of `lockExpiry`, and the sequence the store gave the new row; the table is the one
before with that row added, the only row of the resource, and the rows of every other
resource are as before. -/
theorem ObtainWithNoWait_free (indefinite : Float64 → Int) (retention : Duration)
    (db : Store) (resourceId clientId : Identifier) (clock : Nat → Readings)
    (hfree : ∀ row ∈ db.rows, row.resource_id ≠ resourceId) :
    (ObtainWithNoWait indefinite retention db resourceId clientId clock).lease =
        .ok ⟨resourceId, clientId, (clock 0).atExpiry + retention, db.lastSeq + 1⟩ ∧
      (ObtainWithNoWait indefinite retention db resourceId clientId clock).trace =
        [.start, .attempt ((clock 0).atExpiry + retention)] ∧
      (ObtainWithNoWait indefinite retention db resourceId clientId clock).db.rows =
        db.rows ++
          [⟨resourceId, clientId, unix ((clock 0).atExpiry + retention), db.lastSeq + 1⟩] ∧
      (ObtainWithNoWait indefinite retention db resourceId clientId clock).db.select
          resourceId =
        [⟨resourceId, clientId, unix ((clock 0).atExpiry + retention), db.lastSeq + 1⟩] ∧
      ∀ r, r ≠ resourceId →
        (ObtainWithNoWait indefinite retention db resourceId clientId clock).db.select r =
          db.select r := by
  have hsel : db.select resourceId = [] := by
    simp only [Store.select, List.filter_eq_nil_iff, beq_iff_eq]
    exact hfree
  have hatt : attemptAt retention resourceId clientId clock db 0 = _ :=
    createLockEntry_free hsel clientId (lockExpiry retention (clock 0).atExpiry)
      (clock 0).atAssert (clock 0).atCleanup
  rw [ObtainWithNoWait_ok hatt]
  have hoth := Store.others_of_free hsel
  refine ⟨?_, rfl, rfl, ?_, ?_⟩
  · rw [← hoth]; exact newLease_grant _ _ _ _ _
  · simp only; rw [← hoth]; exact Store.select_grant_self _ _ _ _
  · intro r hr; simp only; rw [← hoth]; exact Store.select_grant _ _ _ _ hr

/-- C3, on a table that holds a lock on another resource. -/
theorem ObtainWithNoWait_free_witness :
    (ObtainWithNoWait amd64Indefinite (2 * second) ⟨[⟨"q", "a", 2, 1⟩], 1⟩ "r" "b"
        (fun _ => ⟨700000000, 700000000, 700000000⟩)).lease =
      .ok ⟨"r", "b", 2700000000, 2⟩ ∧
    (ObtainWithNoWait amd64Indefinite (2 * second) ⟨[⟨"q", "a", 2, 1⟩], 1⟩ "r" "b"
        (fun _ => ⟨700000000, 700000000, 700000000⟩)).db.rows =
      [⟨"q", "a", 2, 1⟩, ⟨"r", "b", 2, 2⟩] :=
  have h := ObtainWithNoWait_free amd64Indefinite (2 * second) ⟨[⟨"q", "a", 2, 1⟩], 1⟩ "r" "b"
    (fun _ => ⟨700000000, 700000000, 700000000⟩) (by decide)
  ⟨h.1, h.2.2.1⟩

/-- C5. `Release` reports success and removes exactly the rows that match the lease in
resource, client and sequence number: the table afterwards is the table before without
them, in the same order and with the same counter. In particular every row with another
sequence number stays, and a lease whose sequence number no row of its resource carries,
as after a reclamation, changes nothing. -/
theorem Release_frame (db : Store) (lease : Lease) :
    (Release db lease).1 = none ∧
      (Release db lease).2.rows = db.rows.filter (fun row =>
        decide ¬(row.resource_id = lease.ResourceId ∧ row.client_id = lease.ClientId ∧
          row.sequence_no = lease.Sequence)) ∧
      (Release db lease).2.lastSeq = db.lastSeq ∧
      (∀ row ∈ db.rows, row.sequence_no ≠ lease.Sequence → row ∈ (Release db lease).2.rows) ∧
      ((∀ row ∈ db.rows, row.resource_id = lease.ResourceId →
          row.sequence_no ≠ lease.Sequence) → (Release db lease).2 = db) := by
  refine ⟨rfl, ?_, rfl, ?_, ?_⟩
  · simp only [Release, Store.deleteLock]
    apply List.filter_congr
    intro row _
    by_cases h1 : row.resource_id = lease.ResourceId <;>
      by_cases h2 : row.client_id = lease.ClientId <;>
      by_cases h3 : row.sequence_no = lease.Sequence <;> simp [h1, h2, h3]
  · intro row hrow hne
    simp only [Release, Store.deleteLock, List.mem_filter, hrow, true_and]
    simp [hne]
  · intro h
    simp only [Release, Store.deleteLock]
    have : db.rows.filter (fun row => !(row.resource_id == lease.ResourceId &&
        row.client_id == lease.ClientId && row.sequence_no == lease.Sequence)) = db.rows := by
      rw [List.filter_eq_self]
      intro row hrow
      by_cases hr : row.resource_id = lease.ResourceId
      · simp [h row hrow hr]
      · simp [hr]
    rw [this]

/-- C10. Failed attempts are atomic: whenever `createLockEntry` returns an error, the table
afterwards is the table before; the error is that of the unexpired row, that of the delete
that did not affect exactly one row, or that of the insert rejected in the transaction. -/
theorem createLockEntry_failed_atomic (db : Store) (resourceId clientId : Identifier)
    (expiry nowAssert nowCleanup : Time)
    (h : (createLockEntry db resourceId clientId expiry nowAssert nowCleanup).1 ≠ none) :
    (createLockEntry db resourceId clientId expiry nowAssert nowCleanup).2 = db ∧
      ((∃ e, (createLockEntry db resourceId clientId expiry nowAssert nowCleanup).1 =
          some (.notExpired resourceId e)) ∨
        (createLockEntry db resourceId clientId expiry nowAssert nowCleanup).1 =
          some (.notCleaned resourceId) ∨
        (createLockEntry db resourceId clientId expiry nowAssert nowCleanup).1 =
          some (.duplicateKey resourceId)) := by
  rcases hres : createLockEntry db resourceId clientId expiry nowAssert nowCleanup with
    ⟨_ | err, db'⟩
  · rw [hres] at h; exact absurd rfl h
  · obtain ⟨hdb, hcause⟩ := createLockEntry_error hres
    refine ⟨hdb, ?_⟩
    rcases hcause with ⟨e, he⟩ | he | he
    · exact Or.inl ⟨e, by rw [he]⟩
    · exact Or.inr (Or.inl (by rw [he]))
    · exact Or.inr (Or.inr (by rw [he]))

/-- C10, at a row whose stored expiry is the current second: the check of
`assertExpiredLock` passes, the delete matches no row, and the table stays as it was. -/
theorem createLockEntry_failed_atomic_witness :
    (createLockEntry ⟨[⟨"r", "a", 2, 1⟩], 1⟩ "r" "b" 4700000000 2700000000 2700000000).1 =
      some (.notCleaned "r") ∧
    (createLockEntry ⟨[⟨"r", "a", 2, 1⟩], 1⟩ "r" "b" 4700000000 2700000000 2700000000).2 =
      ⟨[⟨"r", "a", 2, 1⟩], 1⟩ :=
  ⟨by decide,
   (createLockEntry_failed_atomic ⟨[⟨"r", "a", 2, 1⟩], 1⟩ "r" "b" 4700000000 2700000000
     2700000000 (by decide)).1⟩

/-! ## The retry loop -/

/-- The events of the rounds `a`, ..., `a + k` when all but the last are followed by a
sleep. -/
theorem retryTrace_eq (indefinite : Float64 → Int) (retention : Duration)
    (clock : Nat → Readings) (backoff : ExponentialBackoff) (k : Nat) :
    retryTrace indefinite retention clock backoff k =
      (List.range' 0 k).flatMap (fun j =>
          [Event.attempt (lockExpiry retention (clock j).atExpiry),
           Event.sleep (backoff.interval indefinite j)])
        ++ [Event.attempt (lockExpiry retention (clock (0 + k)).atExpiry)] := by
  unfold retryTrace
  rw [List.range_eq_range', Nat.zero_add]

/-- The loop from round `a`, when the rounds `a`, ..., `a + k - 1` fail and round `a + k`
succeeds. -/
theorem obtainLoop_success (indefinite : Float64 → Int) (retention : Duration)
    (r c : Identifier) (clock : Nat → Readings) (db db' : Store)
    (backoff : ExponentialBackoff) (n : Nat) (hn : backoff.naxAttempts = n) (k : Nat) :
    ∀ a : Nat, a + k ≤ n →
      (∀ j < k, (attemptAt retention r c clock db (a + j)).1 ≠ none) →
      attemptAt retention r c clock db (a + k) = (none, db') →
      obtainLoop indefinite retention r c clock db { backoff with currentAttempt := a } a =
        { lease := newLease db' r c (lockExpiry retention (clock (a + k)).atExpiry),
          db := db', backoff := { backoff with currentAttempt := (a + k : Nat) },
          trace := (List.range' a k).flatMap (fun j =>
              [Event.attempt (lockExpiry retention (clock j).atExpiry),
               Event.sleep (backoff.interval indefinite j)])
            ++ [Event.attempt (lockExpiry retention (clock (a + k)).atExpiry)] } := by
  induction k with
  | zero =>
    intro a _ _ hok
    have hok' : attemptAt retention r c clock db a = (none, db') := hok
    rw [obtainLoop_ok hok']
    rfl
  | succ k ih =>
    intro a hle hfail hok
    have h0 : (attemptAt retention r c clock db a).1 ≠ none := hfail 0 (Nat.succ_pos k)
    rcases hatt : attemptAt retention r c clock db a with ⟨_ | err, db1⟩
    · rw [hatt] at h0; exact absurd rfl h0
    · have hdb1 := (createLockEntry_error hatt).1
      subst hdb1
      have hnext : ({ backoff with currentAttempt := (a : Int) } : ExponentialBackoff).Next
          indefinite = (some (backoff.interval indefinite a),
            { backoff with currentAttempt := ((a + 1 : Nat) : Int) }) := by
        rw [Next_of_lt indefinite (by simp only; omega)]
        simp only [Nat.cast_add, Nat.cast_one]
        rfl
      rw [obtainLoop_retry hatt hnext]
      have hidx : a + 1 + k = a + (k + 1) := by omega
      have hrec := ih (a + 1) (by omega)
        (fun j hj => by
          have := hfail (j + 1) (by omega)
          rwa [show a + (j + 1) = a + 1 + j by omega] at this)
        (by rwa [hidx])
      rw [hrec, hidx]
      simp only [List.range'_succ, List.flatMap_cons, List.cons_append, List.nil_append,
        List.singleton_append]

/-- The loop from round `a`, when the rounds `a`, ..., `n` all fail. -/
theorem obtainLoop_exhausted (indefinite : Float64 → Int) (retention : Duration)
    (r c : Identifier) (clock : Nat → Readings) (db : Store)
    (backoff : ExponentialBackoff) (n : Nat) (hn : backoff.naxAttempts = n) (err : LockError)
    (k : Nat) :
    ∀ a : Nat, a + k = n →
      (∀ j < k, (attemptAt retention r c clock db (a + j)).1 ≠ none) →
      (attemptAt retention r c clock db n).1 = some err →
      obtainLoop indefinite retention r c clock db { backoff with currentAttempt := a } a =
        { lease := .error (.exhausted r n err),
          db := db, backoff := { backoff with currentAttempt := n },
          trace := (List.range' a k).flatMap (fun j =>
              [Event.attempt (lockExpiry retention (clock j).atExpiry),
               Event.sleep (backoff.interval indefinite j)])
            ++ [Event.attempt (lockExpiry retention (clock n).atExpiry)] } := by
  induction k with
  | zero =>
    intro a ha _ hlast
    have han : a = n := by omega
    subst han
    rcases hatt : attemptAt retention r c clock db a with ⟨e, db1⟩
    rw [hatt] at hlast
    simp only at hlast
    subst hlast
    have hdb1 := (createLockEntry_error hatt).1
    subst hdb1
    rw [obtainLoop_last hatt (Next_of_ge indefinite (by simp only; omega))]
    rfl
  | succ k ih =>
    intro a ha hfail hlast
    have h0 : (attemptAt retention r c clock db a).1 ≠ none := hfail 0 (Nat.succ_pos k)
    rcases hatt : attemptAt retention r c clock db a with ⟨_ | e, db1⟩
    · rw [hatt] at h0; exact absurd rfl h0
    · have hdb1 := (createLockEntry_error hatt).1
      subst hdb1
      have hnext : ({ backoff with currentAttempt := (a : Int) } : ExponentialBackoff).Next
          indefinite = (some (backoff.interval indefinite a),
            { backoff with currentAttempt := ((a + 1 : Nat) : Int) }) := by
        rw [Next_of_lt indefinite (by simp only; omega)]
        simp only [Nat.cast_add, Nat.cast_one]
        rfl
      rw [obtainLoop_retry hatt hnext]
      have hrec := ih (a + 1) (by omega)
        (fun j hj => by
          have := hfail (j + 1) (by omega)
          rwa [show a + (j + 1) = a + 1 + j by omega] at this)
        hlast
      rw [hrec]
      simp only [List.range'_succ, List.flatMap_cons, List.cons_append, List.nil_append,
        List.singleton_append]


/-- The loop of `Next` applies the scaling step once for each count up to `currentAttempt`. -/
theorem ExponentialBackoff.nextLoop_eq_iterate (indefinite : Float64 → Int)
    (backoff : ExponentialBackoff) (cnt : Int) (d : Duration) :
    nextLoop indefinite backoff cnt d =
      (scale indefinite backoff.Multiplier)^[(backoff.currentAttempt - cnt).toNat] d := by
  generalize hm : (backoff.currentAttempt - cnt).toNat = m
  induction m generalizing cnt d with
  | zero =>
    rw [nextLoop, if_neg (by omega)]
    rfl
  | succ m ih =>
    rw [nextLoop, if_pos (by omega), ih _ _ (by omega)]
    rfl

theorem ExponentialBackoff.interval_eq_iterate (indefinite : Float64 → Int)
    (backoff : ExponentialBackoff) (j : Nat) :
    backoff.interval indefinite j =
      (scale indefinite backoff.Multiplier)^[j] backoff.InitialInterval := by
  unfold interval
  rw [nextLoop_eq_iterate]
  simp

/-- C6. Retry orchestration, for a backoff with `maxAttempts = n ≥ 0`: `ObtainWithBackoff`
calls `Start`, then runs attempts until the first that succeeds. When round `k ≤ n`,
counted from zero, is the first to succeed, it returns the lease of that round, and its
events are `Start`, then each of the `k` failed attempts followed by the sleep of the
backoff's interval of that number, then the attempt that succeeds. When the rounds
`0`, ..., `n` all fail, it returns the error that reports `n` repetitions and the cause of
the last attempt, after `n + 1` attempts and `n` sleeps in the same order, and the table
is as before. With the backoff of `ObtainWithNoWait` the first failure is the last. -/
theorem ObtainWithBackoff_retry (indefinite : Float64 → Int) (retention : Duration)
    (db : Store) (resourceId clientId : Identifier) (backoff : ExponentialBackoff)
    (clock : Nat → Readings) (n : Nat) (hn : backoff.naxAttempts = n) :
    (∀ k ≤ n, (∀ j < k, (attemptAt retention resourceId clientId clock db j).1 ≠ none) →
      (attemptAt retention resourceId clientId clock db k).1 = none →
      ObtainWithBackoff indefinite retention db resourceId clientId backoff clock =
        { lease := .ok ⟨resourceId, clientId, (clock k).atExpiry + retention, db.lastSeq + 1⟩,
          db := (attemptAt retention resourceId clientId clock db k).2,
          backoff := { backoff with currentAttempt := k },
          trace := .start :: retryTrace indefinite retention clock backoff k }) ∧
    (∀ err, (∀ j < n, (attemptAt retention resourceId clientId clock db j).1 ≠ none) →
      (attemptAt retention resourceId clientId clock db n).1 = some err →
      ObtainWithBackoff indefinite retention db resourceId clientId backoff clock =
        { lease := .error (.exhausted resourceId n err), db := db,
          backoff := { backoff with currentAttempt := n },
          trace := .start :: retryTrace indefinite retention clock backoff n }) ∧
    (∀ err, (attemptAt retention resourceId clientId clock db 0).1 = some err →
      ObtainWithNoWait indefinite retention db resourceId clientId clock =
        { lease := .error (.exhausted resourceId 0 err), db := db,
          backoff := newEmptyBackoff,
          trace := [.start, .attempt ((clock 0).atExpiry + retention)] }) := by
  refine ⟨?_, ?_, ?_⟩
  · intro k hk hfail hok
    rcases hatt : attemptAt retention resourceId clientId clock db k with ⟨e, db'⟩
    rw [hatt] at hok
    simp only at hok
    subst hok
    have hloop := obtainLoop_success indefinite retention resourceId clientId clock db db'
      backoff n hn k 0 (by omega) (by simpa using hfail) (by simpa using hatt)
    unfold ObtainWithBackoff
    have hstart : backoff.Start = { backoff with currentAttempt := ((0 : Nat) : Int) } := rfl
    rw [hstart, hloop, retryTrace_eq]
    simp only [Nat.zero_add]
    have hdb' := attemptAt_ok hatt
    rw [hdb']
    congr 1
    exact newLease_grant _ _ _ _ _
  · intro err hfail hlast
    have hloop := obtainLoop_exhausted indefinite retention resourceId clientId clock db
      backoff n hn err n 0 (by omega) (by simpa using hfail) hlast
    unfold ObtainWithBackoff
    have hstart : backoff.Start = { backoff with currentAttempt := ((0 : Nat) : Int) } := rfl
    rw [hstart, hloop, retryTrace_eq]
    simp only [Nat.zero_add]
  · intro err herr
    rcases hatt : attemptAt retention resourceId clientId clock db 0 with ⟨e, db'⟩
    rw [hatt] at herr
    simp only at herr
    subst herr
    have hdb' := (createLockEntry_error hatt).1
    subst hdb'
    exact ObtainWithNoWait_error hatt

/-- C6, on the history of the test `TestLockWitBackoff`: the lock is held until 2 s, and
`Obtain` with the default backoff tries at 0 s, 1 s, 2.5 s and 4.75 s; the first three
attempts fail and the fourth is granted. -/
theorem ObtainWithBackoff_retry_witness :
    NewBackoff.naxAttempts = ((3 : Nat) : Int) ∧
    Obtain amd64Indefinite (2 * second) ⟨[⟨"r", "a", 2, 1⟩], 1⟩ "r" "b"
        (clockOf [0, 1000000000, 2500000000, 4750000000]) =
      { lease := .ok ⟨"r", "b", 6750000000, 2⟩,
        db := ⟨[⟨"r", "b", 6, 2⟩], 2⟩,
        backoff := { NewBackoff with currentAttempt := 3 },
        trace := [.start, .attempt 2000000000, .sleep 1000000000, .attempt 3000000000,
          .sleep 1500000000, .attempt 4500000000, .sleep 2250000000, .attempt 6750000000] } := by
  refine ⟨rfl, ?_⟩
  have h := (ObtainWithBackoff_retry amd64Indefinite (2 * second) ⟨[⟨"r", "a", 2, 1⟩], 1⟩
    "r" "b" NewBackoff (clockOf [0, 1000000000, 2500000000, 4750000000]) 3 rfl).1 3
    (le_refl 3) (by decide) (by decide)
  unfold Obtain
  rw [h]
  have htrace : retryTrace amd64Indefinite (2 * second)
      (clockOf [0, 1000000000, 2500000000, 4750000000]) NewBackoff 3 =
      [.attempt 2000000000, .sleep 1000000000, .attempt 3000000000,
        .sleep 1500000000, .attempt 4500000000, .sleep 2250000000, .attempt 6750000000] := by
    unfold retryTrace
    simp only [interval_eq_iterate]
    decide
  rw [htrace]
  congr 1

/-! ## Sequence numbers along a history -/

/-- A call of `ObtainWithBackoff` either fails and leaves the table, or grants the lease of
the row it has put in place of the rows of the resource, numbered by the counter. -/
theorem ObtainWithBackoff_cases (indefinite : Float64 → Int) (retention : Duration)
    (db : Store) (r c : Identifier) (backoff : ExponentialBackoff) (clock : Nat → Readings) :
    ((ObtainWithBackoff indefinite retention db r c backoff clock).db = db ∧
      ∃ err, (ObtainWithBackoff indefinite retention db r c backoff clock).lease =
        .error err) ∨
    ∃ expiry,
      (ObtainWithBackoff indefinite retention db r c backoff clock).db =
        { rows := db.others r ++ [⟨r, c, unix expiry, db.lastSeq + 1⟩],
          lastSeq := db.lastSeq + 1 } ∧
      (ObtainWithBackoff indefinite retention db r c backoff clock).lease =
        .ok ⟨r, c, expiry, db.lastSeq + 1⟩ :=
  obtainLoop_cases indefinite retention r c clock db backoff.Start 0

/-- Along a history from a consistent store, every lease granted is numbered above the
counter at the start, and the leases granted are numbered in increasing order. -/
theorem run_sequences (indefinite : Float64 → Int) (ops : List Op) :
    ∀ db : Store, db.Consistent →
      (∀ lease ∈ (run indefinite db ops).2, db.lastSeq < lease.Sequence) ∧
      (run indefinite db ops).2.Pairwise (fun a b => a.Sequence < b.Sequence) := by
  induction ops with
  | nil =>
    intro db _
    simp [run]
  | cons op ops ih =>
    intro db hcons
    cases op with
    | release lease =>
      simp only [run]
      exact ih _ (hcons.release lease)
    | obtain retention r c backoff clock =>
      simp only [run]
      rcases ObtainWithBackoff_cases indefinite retention db r c backoff clock with
        ⟨hdb, err, herr⟩ | ⟨expiry, hdb, hlease⟩
      · rw [herr, hdb]
        exact ih db hcons
      · rw [hlease, hdb]
        obtain ⟨habove, hpair⟩ := ih _ (hcons.grant r c (unix expiry))
        simp only at habove
        refine ⟨?_, ?_⟩
        · intro lease hmem
          rcases List.mem_cons.mp hmem with rfl | hmem
          · simp
          · have := habove lease hmem
            omega
        · rw [List.pairwise_cons]
          refine ⟨?_, hpair⟩
          intro lease hmem
          have := habove lease hmem
          simpa using this

/-- C4. Sequence monotonicity: along every history of `ObtainWithBackoff` calls (with any
backoff, so also `Obtain` and `ObtainWithNoWait`; any retention and readings of the clock)
and `Release` calls from a consistent store, the leases granted carry strictly increasing
sequence numbers, each above all those granted before it, so in particular for two
grants of one resource, whether the earlier row was released or reclaimed. And after
`Release` of a lease whose row is in the store, an `ObtainWithNoWait` on its resource
succeeds with a greater sequence number. -/
theorem sequence_monotone (indefinite : Float64 → Int) (db : Store) (hcons : db.Consistent) :
    (∀ ops : List Op,
      (run indefinite db ops).2.Pairwise (fun a b => a.Sequence < b.Sequence)) ∧
    (∀ (lease : Lease) (retention : Duration) (clientId : Identifier)
        (clock : Nat → Readings), lease.row ∈ db.rows →
      ∃ sequence, lease.Sequence < sequence ∧
        (ObtainWithNoWait indefinite retention (Release db lease).2 lease.ResourceId clientId
          clock).lease =
          .ok ⟨lease.ResourceId, clientId, (clock 0).atExpiry + retention, sequence⟩) := by
  refine ⟨fun ops => (run_sequences indefinite ops db hcons).2, ?_⟩
  intro lease retention clientId clock hrow
  have hseq : lease.Sequence ≤ db.lastSeq := hcons.2 _ hrow
  have hsel := hcons.select_eq hrow
  have hfree : (Release db lease).2.select lease.ResourceId = [] := by
    simp only [Release, Store.deleteLock, Store.select, List.filter_filter,
      List.filter_eq_nil_iff]
    intro row hmem
    simp only [Bool.and_eq_true, beq_iff_eq, Bool.not_eq_true', not_and]
    intro hres
    have hin : row ∈ db.select lease.row.resource_id := by
      simp only [Store.select, List.mem_filter, beq_iff_eq]
      exact ⟨hmem, hres⟩
    rw [hsel, List.mem_singleton] at hin
    subst hin
    simp [Lease.row]
  have hatt : attemptAt retention lease.ResourceId clientId clock (Release db lease).2 0 = _ :=
    createLockEntry_free hfree clientId (lockExpiry retention (clock 0).atExpiry)
      (clock 0).atAssert (clock 0).atCleanup
  refine ⟨db.lastSeq + 1, by omega, ?_⟩
  rw [ObtainWithNoWait_ok hatt, ← Store.others_of_free hfree]
  exact newLease_grant _ _ _ _ _

/-- C4, on the history of the test `TestLockWithRelease` followed by a reclamation: a lease
is granted at 0 s and released, a second one is granted at once, a third client is
refused at 1 s and granted the lock by reclamation at 5 s; the sequence numbers of the
three leases are 1, 2 and 3. -/
theorem sequence_monotone_witness :
    (⟨[], 0⟩ : Store).Consistent ∧
    (run amd64Indefinite ⟨[], 0⟩
      [.obtain (2 * second) "r" "a" newEmptyBackoff (clockOf [0]),
       .release ⟨"r", "a", 2000000000, 1⟩,
       .obtain (2 * second) "r" "a" newEmptyBackoff (clockOf [0]),
       .obtain (2 * second) "r" "b" newEmptyBackoff (clockOf [1000000000]),
       .obtain (2 * second) "r" "b" newEmptyBackoff (clockOf [5000000000])]).2 =
      [⟨"r", "a", 2000000000, 1⟩, ⟨"r", "a", 2000000000, 2⟩, ⟨"r", "b", 7000000000, 3⟩] ∧
    (run amd64Indefinite ⟨[], 0⟩
      [.obtain (2 * second) "r" "a" newEmptyBackoff (clockOf [0]),
       .release ⟨"r", "a", 2000000000, 1⟩,
       .obtain (2 * second) "r" "a" newEmptyBackoff (clockOf [0]),
       .obtain (2 * second) "r" "b" newEmptyBackoff (clockOf [1000000000]),
       .obtain (2 * second) "r" "b" newEmptyBackoff (clockOf [5000000000])]).2.Pairwise
      (fun a b => a.Sequence < b.Sequence) := by
  refine ⟨by decide, ?_, (sequence_monotone amd64Indefinite ⟨[], 0⟩ (by decide)).1 _⟩
  have a1 : attemptAt (2 * second) "r" "a" (clockOf [0]) ⟨[], 0⟩ 0 =
      (none, ⟨[⟨"r", "a", 2, 1⟩], 1⟩) := by decide
  have a2 : attemptAt (2 * second) "r" "a" (clockOf [0]) ⟨[], 1⟩ 0 =
      (none, ⟨[⟨"r", "a", 2, 2⟩], 2⟩) := by decide
  have a3 : attemptAt (2 * second) "r" "b" (clockOf [1000000000]) ⟨[⟨"r", "a", 2, 2⟩], 2⟩ 0 =
      (some (.notExpired "r" 2), ⟨[⟨"r", "a", 2, 2⟩], 2⟩) := by decide
  have a4 : attemptAt (2 * second) "r" "b" (clockOf [5000000000]) ⟨[⟨"r", "a", 2, 2⟩], 2⟩ 0 =
      (none, ⟨[⟨"r", "b", 7, 3⟩], 3⟩) := by decide
  have e1 : ObtainWithBackoff amd64Indefinite (2 * second) ⟨[], 0⟩ "r" "a" newEmptyBackoff
      (clockOf [0]) = _ := ObtainWithNoWait_ok a1
  have e2 : ObtainWithBackoff amd64Indefinite (2 * second) ⟨[], 1⟩ "r" "a" newEmptyBackoff
      (clockOf [0]) = _ := ObtainWithNoWait_ok a2
  have e3 : ObtainWithBackoff amd64Indefinite (2 * second) ⟨[⟨"r", "a", 2, 2⟩], 2⟩ "r" "b"
      newEmptyBackoff (clockOf [1000000000]) = _ := ObtainWithNoWait_error a3
  have e4 : ObtainWithBackoff amd64Indefinite (2 * second) ⟨[⟨"r", "a", 2, 2⟩], 2⟩ "r" "b"
      newEmptyBackoff (clockOf [5000000000]) = _ := ObtainWithNoWait_ok a4
  have r1 : (Release ⟨[⟨"r", "a", 2, 1⟩], 1⟩ ⟨"r", "a", 2000000000, 1⟩).2 = ⟨[], 1⟩ := by
    decide
  simp only [run, e1, r1, e2, e3, e4]
  rfl

/-! ## Exact products in `float64` -/

namespace Float64

theorem log2Loop_eq_log (fuel : Nat) : ∀ n, n ≤ fuel → log2Loop fuel n = Nat.log 2 n := by
  induction fuel with
  | zero =>
    intro n hn
    have : n = 0 := by omega
    subst this
    simp [log2Loop]
  | succ fuel ih =>
    intro n hn
    unfold log2Loop
    split
    · next hlt => rw [Nat.log_of_lt hlt]
    · next hge =>
      rw [ih (n / 2) (by omega), @Nat.log_of_one_lt_of_le 2 n (by norm_num) (by omega)]

theorem log2_eq_log (n : Nat) : log2 n = Nat.log 2 n :=
  log2Loop_eq_log n n (le_refl n)

theorem pow_log2_le {n : Nat} (h : n ≠ 0) : 2 ^ log2 n ≤ n := by
  rw [log2_eq_log]
  exact Nat.pow_log_le_self 2 h

theorem lt_pow_log2 (n : Nat) : n < 2 ^ (log2 n + 1) := by
  rw [log2_eq_log]
  exact Nat.lt_pow_succ_log_self (by norm_num) n

theorem log2_lt_of_lt_pow {n k : Nat} (h : n < 2 ^ k) (hn : n ≠ 0) : log2 n < k := by
  have h1 := pow_log2_le hn
  have h2 : 2 ^ log2 n < 2 ^ k := lt_of_le_of_lt h1 h
  exact (Nat.pow_lt_pow_iff_right (by norm_num)).mp h2

/-- A natural number below `2^53` is a `float64`. -/
theorem ofInt64_of_lt {x : Nat} (h : x < 2 ^ 53) : ofInt64 (x : Int) = .finite false x 0 := by
  unfold ofInt64 round
  have hneg : decide ((x : Int) < 0) = false := by simp
  simp only [hneg, Int.natAbs_ofNat]
  by_cases hx : x = 0
  · simp [hx]
  · have hlog := log2_lt_of_lt_pow h hx
    rw [if_neg hx]
    have hq : max ((0 : Int) + (log2 x : Int) - 52) (-1074) ≤ 0 := by omega
    rw [if_pos hq, if_pos hq, if_neg hx, if_neg (by omega)]


/-- A value whose last bit is no lower than the last place is kept by `round`. -/
theorem round_of_le (neg : Bool) {m : Nat} {e : Int} (hm : m ≠ 0)
    (hq : max (e + log2 m - 52) (-1074) ≤ e) (hov : e + log2 m < 1024) :
    round neg m e = .finite neg m e := by
  unfold round
  rw [if_neg hm]
  simp only
  rw [if_pos hq, if_pos hq, if_neg hm, if_neg (by omega)]

/-- A value whose bits below the last place are all zero is kept by `round`. -/
theorem round_of_dvd (neg : Bool) {m : Nat} {e : Int} (hm : m ≠ 0)
    (hq : ¬ max (e + log2 m - 52) (-1074) ≤ e)
    (hlo : m % 2 ^ (max (e + log2 m - 52) (-1074) - e).toNat = 0)
    (hov : max (e + log2 m - 52) (-1074) +
      log2 (m / 2 ^ (max (e + log2 m - 52) (-1074) - e).toNat) < 1024) :
    round neg m e = .finite neg (m / 2 ^ (max (e + log2 m - 52) (-1074) - e).toNat)
      (max (e + log2 m - 52) (-1074)) := by
  have hhi : m / 2 ^ (max (e + log2 m - 52) (-1074) - e).toNat ≠ 0 := by
    intro h0
    have := Nat.div_add_mod m (2 ^ (max (e + log2 m - 52) (-1074) - e).toNat)
    rw [h0, hlo] at this
    simp at this
    exact hm this.symm
  have hpos : 0 < 2 ^ (max (e + (log2 m : Int) - 52) (-1074) - e).toNat := by positivity
  unfold round
  rw [if_neg hm]
  simp only
  rw [if_neg hq, if_neg hq, hlo]
  have hup : (decide (2 ^ (max (e + (log2 m : Int) - 52) (-1074) - e).toNat < 2 * 0) ||
      (decide (2 ^ (max (e + (log2 m : Int) - 52) (-1074) - e).toNat = 2 * 0) &&
        m / 2 ^ (max (e + (log2 m : Int) - 52) (-1074) - e).toNat % 2 == 1)) = false := by
    have h1 : ¬ (2 ^ (max (e + (log2 m : Int) - 52) (-1074) - e).toNat < 2 * 0) := by omega
    have h2 : ¬ (2 ^ (max (e + (log2 m : Int) - 52) (-1074) - e).toNat = 2 * 0) := by omega
    simp [h1, h2]
  rw [hup]
  simp only [Bool.false_eq_true, if_false]
  rw [if_neg hhi, if_neg (by omega)]


/-- Cutting a non-negative finite value to an integer. -/
theorem toInt64_finite (indefinite : Float64 → Int) {m : Nat} {e : Int} {n : Nat}
    (hn : n < 2 ^ 53)
    (hval : (0 ≤ e ∧ n = m * 2 ^ e.toNat) ∨ (e < 0 ∧ m = n * 2 ^ (-e).toNat)) :
    toInt64 indefinite (.finite false m e) = n := by
  have hmag : (if 0 ≤ e then m * 2 ^ e.toNat else m / 2 ^ (-e).toNat) = n := by
    rcases hval with ⟨he, h⟩ | ⟨he, h⟩
    · rw [if_pos he, h]
    · rw [if_neg (by omega), h, Nat.mul_div_cancel _ (by positivity)]
  unfold toInt64
  simp only [hmag, Bool.false_eq_true, if_false]
  rw [if_pos]
  constructor
  · have : (0 : Int) ≤ (n : Int) := Int.natCast_nonneg n
    have h2 : (0 : Int) < 2 ^ 63 := by norm_num
    omega
  · have : (n : Int) < 2 ^ 53 := by exact_mod_cast hn
    have h2 : (2 : Int) ^ 53 < 2 ^ 63 := by norm_num
    omega

/-- When `m * 2^e` is a natural number below `2^53`, rounding it to `float64` and cutting it
to an integer gives that number. -/
theorem toInt64_round_exact (indefinite : Float64 → Int) {m : Nat} {e : Int} {n : Nat}
    (hn : n < 2 ^ 53)
    (hval : (0 ≤ e ∧ n = m * 2 ^ e.toNat) ∨ (e < 0 ∧ m = n * 2 ^ (-e).toNat)) :
    toInt64 indefinite (round false m e) = n := by
  by_cases hm : m = 0
  · subst hm
    have hn0 : n = 0 := by
      rcases hval with ⟨_, h⟩ | ⟨_, h⟩
      · simpa using h
      · have hp : 0 < 2 ^ (-e).toNat := by positivity
        rcases Nat.mul_eq_zero.mp h.symm with h0 | h0
        · exact h0
        · omega
    subst hn0
    have : round false 0 e = .finite false 0 0 := by simp [round]
    rw [this]
    exact toInt64_finite indefinite (by norm_num) (Or.inl ⟨le_refl 0, by simp⟩)
  · have hn0 : n ≠ 0 := by
      rintro rfl
      rcases hval with ⟨_, h⟩ | ⟨_, h⟩
      · have hp : 0 < 2 ^ e.toNat := by positivity
        rcases Nat.mul_eq_zero.mp h.symm with h0 | h0
        · exact hm h0
        · omega
      · simp at h; exact hm h
    -- the leading bit of the value is below bit 53
    have htop : e + (log2 m : Int) ≤ 52 := by
      rcases hval with ⟨he, h⟩ | ⟨he, h⟩
      · have h1 : 2 ^ (log2 m + e.toNat) ≤ n := by
          rw [h, pow_add]
          exact Nat.mul_le_mul_right _ (pow_log2_le hm)
        have h2 : 2 ^ (log2 m + e.toNat) < 2 ^ 53 := lt_of_le_of_lt h1 hn
        have h3 := (Nat.pow_lt_pow_iff_right (by norm_num)).mp h2
        omega
      · have h1 : m < 2 ^ (53 + (-e).toNat) := by
          rw [h, pow_add]
          exact Nat.mul_lt_mul_of_pos_right hn (by positivity)
        have h3 := log2_lt_of_lt_pow h1 hm
        omega
    by_cases hq : max (e + (log2 m : Int) - 52) (-1074) ≤ e
    · rw [round_of_le false hm hq (by omega)]
      exact toInt64_finite indefinite hn hval
    · have he : e < 0 := by omega
      rcases hval with ⟨he', _⟩ | ⟨_, h⟩
      · omega
      · -- the shift is at most the number of fraction bits, which are all zero
        obtain ⟨s, hs⟩ : ∃ s, s = (max (e + (log2 m : Int) - 52) (-1074) - e).toNat := ⟨_, rfl⟩
        obtain ⟨k, hk⟩ : ∃ k, k = (-e).toNat := ⟨_, rfl⟩
        have hsk : s ≤ k := by omega
        have hsplit : m = n * 2 ^ (k - s) * 2 ^ s := by
          rw [h, ← hk, Nat.mul_assoc, ← pow_add, Nat.sub_add_cancel hsk]
        have hlo : m % 2 ^ s = 0 := by
          rw [hsplit]
          exact Nat.mul_mod_left _ _
        have hhi : m / 2 ^ s = n * 2 ^ (k - s) := by
          rw [hsplit]
          exact Nat.mul_div_cancel _ (by positivity)
        have hhi0 : n * 2 ^ (k - s) ≠ 0 := by
          have hp : 0 < 2 ^ (k - s) := by positivity
          exact Nat.mul_ne_zero hn0 (by omega)
        have hlog : log2 (n * 2 ^ (k - s)) < 53 + (k - s) := by
          apply log2_lt_of_lt_pow _ hhi0
          rw [pow_add]
          exact Nat.mul_lt_mul_of_pos_right hn (by positivity)
        rw [round_of_dvd false hm hq (by rw [← hs]; exact hlo)
          (by rw [← hs, hhi]; omega), ← hs, hhi]
        apply toInt64_finite indefinite hn
        by_cases hq0 : 0 ≤ max (e + (log2 m : Int) - 52) (-1074)
        · left
          refine ⟨hq0, ?_⟩
          have hks : k - s = 0 := by omega
          have h0 : (max (e + (log2 m : Int) - 52) (-1074)).toNat = 0 := by omega
          rw [hks, h0]
          simp
        · right
          refine ⟨by omega, ?_⟩
          have hks : (-max (e + (log2 m : Int) - 52) (-1074)).toNat = k - s := by omega
          rw [hks]

/-- One scaling step is exact when the product is a natural number below `2^53`. -/
theorem scale_exact (indefinite : Float64 → Int) {x n mm : Nat} {me : Int}
    (hx : x < 2 ^ 53) (hn : n < 2 ^ 53)
    (hval : (0 ≤ me ∧ n = x * mm * 2 ^ me.toNat) ∨ (me < 0 ∧ x * mm = n * 2 ^ (-me).toNat)) :
    ExponentialBackoff.scale indefinite (.finite false mm me) (x : Int) = n := by
  unfold ExponentialBackoff.scale
  rw [ofInt64_of_lt hx]
  simp only [mul, Bool.xor_false, zero_add]
  exact toInt64_round_exact indefinite hn hval


/-- One scaling step is exact when the product, as a rational number, is a natural number
below `2^53`. -/
theorem scale_exact_rat (indefinite : Float64 → Int) {x n mm : Nat} {me : Int}
    (hx : x < 2 ^ 53) (hn : n < 2 ^ 53)
    (h : (x : ℚ) * (Float64.finite false mm me).toRat = n) :
    ExponentialBackoff.scale indefinite (.finite false mm me) (x : Int) = n := by
  apply scale_exact indefinite hx hn
  simp only [toRat, Bool.false_eq_true, if_false, one_mul] at h
  by_cases he : 0 ≤ me
  · left
    refine ⟨he, ?_⟩
    obtain ⟨k, rfl⟩ := Int.eq_ofNat_of_zero_le he
    rw [zpow_natCast] at h
    simp only [Int.toNat_ofNat]
    have h' : ((x * mm * 2 ^ k : Nat) : ℚ) = (n : ℚ) := by
      push_cast
      rw [← h]
      ring
    exact (Nat.cast_injective h').symm
  · right
    refine ⟨by omega, ?_⟩
    obtain ⟨k, hk⟩ : ∃ k : Nat, me = -(k : Int) := ⟨(-me).toNat, by omega⟩
    subst hk
    rw [zpow_neg, zpow_natCast] at h
    simp only [neg_neg, Int.toNat_ofNat]
    have hp : (2 : ℚ) ^ k ≠ 0 := by positivity
    have h' : ((x * mm : Nat) : ℚ) = ((n * 2 ^ k : Nat) : ℚ) := by
      push_cast
      rw [← h]
      field_simp
    exact Nat.cast_injective h'

end Float64

/-- The scaling steps compute the power as long as every product on the way is a natural
number below `2^53`. -/
theorem ExponentialBackoff.iterate_scale_exact (indefinite : Float64 → Int) (d mm : Nat)
    (me : Int) (c : Nat)
    (h : ∀ j ≤ c, ∃ n : Nat, n < 2 ^ 53 ∧
      (d : ℚ) * (Float64.finite false mm me).toRat ^ j = n) :
    ∀ j ≤ c, ∃ n : Nat, n < 2 ^ 53 ∧
      (scale indefinite (.finite false mm me))^[j] (d : Int) = (n : Int) ∧
      (n : ℚ) = (d : ℚ) * (Float64.finite false mm me).toRat ^ j := by
  intro j
  induction j with
  | zero =>
    intro h0
    obtain ⟨n, hn, hval⟩ := h 0 h0
    simp only [pow_zero, mul_one] at hval
    have hdn : d = n := Nat.cast_injective hval
    subst hdn
    exact ⟨d, hn, rfl, by simp⟩
  | succ j ih =>
    intro hj
    obtain ⟨x, hx, hit, hxval⟩ := ih (by omega)
    obtain ⟨n, hn, hval⟩ := h (j + 1) hj
    refine ⟨n, hn, ?_, hval.symm⟩
    rw [Function.iterate_succ_apply', hit]
    apply Float64.scale_exact_rat indefinite hx hn
    rw [hxval, ← hval]
    ring

/-! ## The backoff -/

/-- Once the attempts are used up, every further `Next` returns `nil` and changes nothing. -/
theorem ExponentialBackoff.nexts_of_ge (indefinite : Float64 → Int) (k : Nat)
    {backoff : ExponentialBackoff} (h : backoff.naxAttempts ≤ backoff.currentAttempt) :
    nexts indefinite k backoff = (List.replicate k none, backoff) := by
  induction k with
  | zero => rfl
  | succ k ih =>
    simp only [nexts, Next_of_ge indefinite h, ih, List.replicate_succ]

/-- C7 as stated fails: with an initial interval of 1 ns and a multiplier of 1.5, the third
`Next` returns 1 ns, while `initialInterval × multiplier^2` is 2.25 ns, 2 ns when cut to
whole nanoseconds: `Next` cuts the product to whole nanoseconds after every
multiplication, and 1.5 ns is cut to 1 ns each time. -/
theorem Next_differs_from_power :
    (0 : Int) ≤ 3 ∧ (0 : Duration) < 1 ∧ 0 < (Float64.finite false 3 (-1)).toRat ∧
    (2 : Int) < 3 ∧
    (Next amd64Indefinite
      (⟨2, 3, 1, .finite false 3 (-1)⟩ : ExponentialBackoff)).1 = some 1 ∧
    specInterval (⟨2, 3, 1, .finite false 3 (-1)⟩ : ExponentialBackoff) = 9 / 4 ∧
    ⌊specInterval (⟨2, 3, 1, .finite false 3 (-1)⟩ : ExponentialBackoff)⌋ = 2 := by
  have hspec : specInterval (⟨2, 3, 1, .finite false 3 (-1)⟩ : ExponentialBackoff) =
      9 / 4 := by
    simp only [specInterval, Float64.toRat, show Int.toNat 2 = 2 from rfl]
    norm_num
  refine ⟨by decide, by decide, ?_, by decide, ?_, hspec, ?_⟩
  · simp only [Float64.toRat]
    norm_num
  · rw [Next_of_lt amd64Indefinite (by decide), nextLoop_eq_iterate]
    decide
  · rw [hspec, Int.floor_eq_iff]
    norm_num

/-- C7, amended. `Next` while `currentAttempt < maxAttempts`: it returns the initial
interval after `currentAttempt` scaling steps, each of which multiplies by the multiplier
in `float64` and cuts the product to whole nanoseconds, and it adds one to
`currentAttempt` and leaves the other fields. For a non-negative initial interval and a
non-negative finite multiplier the result is exactly
`initialInterval × multiplier^currentAttempt` whenever each `initialInterval × multiplier^j`
with `j ≤ currentAttempt` is a whole number of nanoseconds below `2^53`. When
`currentAttempt` equals `maxAttempts`, `Next` returns `nil` and leaves the backoff as it
is. -/
theorem Next_iterated (indefinite : Float64 → Int) (backoff : ExponentialBackoff) :
    (backoff.currentAttempt < backoff.naxAttempts →
      backoff.Next indefinite =
        (some ((scale indefinite backoff.Multiplier)^[backoff.currentAttempt.toNat]
            backoff.InitialInterval),
         { currentAttempt := backoff.currentAttempt + 1, naxAttempts := backoff.naxAttempts,
           InitialInterval := backoff.InitialInterval, Multiplier := backoff.Multiplier })) ∧
    (backoff.currentAttempt < backoff.naxAttempts →
      ∀ (d mm : Nat) (me : Int), backoff.InitialInterval = d →
        backoff.Multiplier = .finite false mm me →
        (∀ j ≤ backoff.currentAttempt.toNat, ∃ n : Nat, n < 2 ^ 53 ∧
          (d : ℚ) * (Float64.finite false mm me).toRat ^ j = n) →
        ∃ result : Duration, (backoff.Next indefinite).1 = some result ∧
          (result : ℚ) = backoff.specInterval) ∧
    (backoff.currentAttempt = backoff.naxAttempts →
      backoff.Next indefinite = (none, backoff)) := by
  have hnext : backoff.currentAttempt < backoff.naxAttempts →
      backoff.Next indefinite =
        (some ((scale indefinite backoff.Multiplier)^[backoff.currentAttempt.toNat]
            backoff.InitialInterval),
         { currentAttempt := backoff.currentAttempt + 1, naxAttempts := backoff.naxAttempts,
           InitialInterval := backoff.InitialInterval, Multiplier := backoff.Multiplier }) := by
    intro h
    rw [Next_of_lt indefinite h, nextLoop_eq_iterate]
    simp
  refine ⟨hnext, ?_, fun h => Next_of_ge indefinite (le_of_eq h.symm)⟩
  intro h d mm me hd hmul hexact
  obtain ⟨n, -, hit, hval⟩ := iterate_scale_exact indefinite d mm me
    backoff.currentAttempt.toNat hexact _ (le_refl _)
  refine ⟨n, ?_, ?_⟩
  · rw [hnext h, hd, hmul, hit]
  · rw [specInterval, hd, hmul]
    push_cast
    exact hval

/-- C7 amended, at the third call on the default backoff: 2.25 s, which is also the power
`1 s × 1.5^2`. -/
theorem Next_iterated_witness :
    Next amd64Indefinite { NewBackoff with currentAttempt := 2 } =
      (some 2250000000, { NewBackoff with currentAttempt := 3 }) ∧
    specInterval { NewBackoff with currentAttempt := 2 } = 2250000000 := by
  refine ⟨?_, ?_⟩
  · rw [(Next_iterated amd64Indefinite { NewBackoff with currentAttempt := 2 }).1 (by decide)]
    decide
  · simp only [specInterval, NewBackoff, NewExponentialBackoff, Float64.toRat, second,
      show Int.toNat 2 = 2 from rfl]
    norm_num

/-- C8. Default schedule and reset: the backoff of `NewBackoff` has `MaxAttempts() = 3`;
after `Start()` its `Next()` calls return 1 s, 1.5 s, 2.25 s and then `nil` on every
further call, and `Attempts()` then reads 3; a further `Start()` sets `Attempts()` to 0
and the `Next()` calls after it return the same sequence. -/
theorem NewBackoff_schedule (indefinite : Float64 → Int) :
    NewBackoff.MaxAttempts = 3 ∧
    ∀ k : Nat,
      (nexts indefinite (3 + k) NewBackoff.Start).1 =
        [some second, some 1500000000, some 2250000000] ++ List.replicate k none ∧
      (nexts indefinite (3 + k) NewBackoff.Start).2.Attempts = 3 ∧
      (nexts indefinite (3 + k) NewBackoff.Start).2.Start.Attempts = 0 ∧
      (nexts indefinite (3 + k) (nexts indefinite (3 + k) NewBackoff.Start).2.Start).1 =
        [some second, some 1500000000, some 2250000000] ++ List.replicate k none := by
  refine ⟨rfl, fun k => ?_⟩
  have s1 : scale indefinite (.finite false 3 (-1)) 1000000000 = 1500000000 := by
    unfold scale
    rw [show (Float64.ofInt64 1000000000).mul (.finite false 3 (-1)) =
      .finite false 3000000000 (-1) by decide]
    rfl
  have s2 : scale indefinite (.finite false 3 (-1)) 1500000000 = 2250000000 := by
    unfold scale
    rw [show (Float64.ofInt64 1500000000).mul (.finite false 3 (-1)) =
      .finite false 4500000000 (-1) by decide]
    rfl
  have h0 : Next indefinite NewBackoff.Start =
      (some second, { NewBackoff with currentAttempt := 1 }) := by
    rw [Next_of_lt indefinite (by decide), nextLoop_eq_iterate]
    rfl
  have h1 : Next indefinite { NewBackoff with currentAttempt := 1 } =
      (some 1500000000, { NewBackoff with currentAttempt := 2 }) := by
    rw [Next_of_lt indefinite (by decide), nextLoop_eq_iterate]
    show (some ((scale indefinite (.finite false 3 (-1)))^[1] 1000000000), _) = _
    rw [Function.iterate_one, s1]
    rfl
  have h2 : Next indefinite { NewBackoff with currentAttempt := 2 } =
      (some 2250000000, { NewBackoff with currentAttempt := 3 }) := by
    rw [Next_of_lt indefinite (by decide), nextLoop_eq_iterate]
    show (some ((scale indefinite (.finite false 3 (-1)))^[2] 1000000000), _) = _
    rw [Function.iterate_succ_apply, Function.iterate_one, s1, s2]
    rfl
  have hrun : nexts indefinite (3 + k) NewBackoff.Start =
      ([some second, some 1500000000, some 2250000000] ++ List.replicate k none,
       { NewBackoff with currentAttempt := 3 }) := by
    rw [show 3 + k = k + 1 + 1 + 1 by omega]
    simp only [nexts, h0, h1, h2, nexts_of_ge indefinite k
      (show ({ NewBackoff with currentAttempt := 3 } : ExponentialBackoff).naxAttempts ≤
        ({ NewBackoff with currentAttempt := 3 } : ExponentialBackoff).currentAttempt by decide)]
    rfl
  have hstart : ({ NewBackoff with currentAttempt := 3 } : ExponentialBackoff).Start =
      NewBackoff.Start := rfl
  rw [hrun]
  simp only [hstart, hrun]
  exact ⟨trivial, rfl, rfl, trivial⟩

end Lock
